import Mathlib

/-!
A verification development for the version-management and compaction-planner
subsystem of the pdlfs-common LevelDB-derived storage engine
(`db/version_set.cc`).  The C++ source is shallowly embedded: pure C++
functions become Lean functions over explicit state; machine integers are
modelled as `Nat` (no claim in this development exercises integer overflow);
fallible operations return a `Status` value exactly as in the source.
Heap pointers to `FileMetaData` are modelled as values; the runtime reference
counts used by the C++ code for memory management carry no semantic content
for the properties treated here and are omitted from `FileMeta`.  Sublevel
mode (`enable_sublevel = true`) is not modelled; every property treated here
concerns the non-sublevel regime and the embedded operations are faithful for
`enableSublevel = false`.

The user-key type is an arbitrary linear order `K`, matching the engine's
pluggable user comparator; concrete evaluations instantiate `K := Nat`.
-/

namespace VersionSetProof

/-- Modelled from the spec: an internal key `(user_key, sequence, kind)`; the
on-disk encoding (`dbformat`) is not part of the provided sources, so the key
is kept in parsed form. -/
structure InternalKey (K : Type) where
  uk : K
  seq : Nat
  ty : Nat
deriving DecidableEq, Repr

/-- The 8-byte trailer `(sequence << 8) | type` used by the internal key
comparator to break user-key ties (compared descending). -/
def ikTrailer {K : Type} (a : InternalKey K) : Nat := a.seq * 256 + a.ty

/-- Modelled from the spec: `InternalKeyComparator::Compare(a, b) < 0`, i.e.
ascending user key, and among equal user keys descending trailer (newer
records sort first). -/
def ikLt {K : Type} [LinearOrder K] (a b : InternalKey K) : Prop :=
  a.uk < b.uk ∨ (a.uk = b.uk ∧ ikTrailer b < ikTrailer a)

instance {K : Type} [LinearOrder K] (a b : InternalKey K) : Decidable (ikLt a b) :=
  inferInstanceAs (Decidable (a.uk < b.uk ∨ (a.uk = b.uk ∧ ikTrailer b < ikTrailer a)))

/-- `InternalKeyComparator::Compare(a, b) ≤ 0` (comparator order, not
structural equality on ties). -/
def ikLe {K : Type} [LinearOrder K] (a b : InternalKey K) : Prop := ¬ ikLt b a

instance {K : Type} [LinearOrder K] (a b : InternalKey K) : Decidable (ikLe a b) :=
  inferInstanceAs (Decidable (¬ ikLt b a))

/-- `InternalKeyComparator::Compare(a, b) == 0`: equal user keys and equal
trailers. -/
def ikEquiv {K : Type} [LinearOrder K] (a b : InternalKey K) : Prop :=
  a.uk = b.uk ∧ ikTrailer a = ikTrailer b

instance {K : Type} [LinearOrder K] (a b : InternalKey K) : Decidable (ikEquiv a b) :=
  inferInstanceAs (Decidable (a.uk = b.uk ∧ ikTrailer a = ikTrailer b))

/-- `FileMetaData` (fields per spec section 3; the header defining the struct
is not among the provided sources).  The `refs` bookkeeping used by the C++
code purely for deallocation is omitted (values, not pointers, are stored
here). -/
structure FileMeta (K : Type) where
  number : Nat
  fileSize : Nat
  seqOff : Nat
  smallest : InternalKey K
  largest : InternalKey K
  allowedSeeks : Nat
deriving DecidableEq, Repr

/-- `TotalFileSize`: sum of the file sizes of a list of files. -/
def totalFileSize {K : Type} (files : List (FileMeta K)) : Nat :=
  files.foldl (fun sum f => sum + f.fileSize) 0

/-- The subset of `DBOptions` consulted by the version set and planner. -/
structure DBOptions where
  l0CompactionTrigger : Nat
  l1CompactionTrigger : Nat
  levelFactor : Nat
  tableFileSize : Nat
  enableSublevel : Bool
  enableShouldStopBefore : Bool
  rotatingManifest : Bool
deriving DecidableEq, Repr

/-- `MaxGrandParentOverlapBytes`: `level_factor * table_file_size`. -/
def maxGrandParentOverlapBytes (opts : DBOptions) : Nat :=
  opts.levelFactor * opts.tableFileSize

/-- `ExpandedCompactionByteSizeLimit`: `(2*(level_factor+2)+1) * table_file_size`. -/
def expandedCompactionByteSizeLimit (opts : DBOptions) : Nat :=
  (2 * (opts.levelFactor + 2) + 1) * opts.tableFileSize

/-- `MaxBytesForLevel` (a C++ `double`; modelled exactly over `ℚ`):
`l1_compaction_trigger * table_file_size * level_factor^(level-1)`. -/
def maxBytesForLevel (opts : DBOptions) (level : Nat) : ℚ :=
  (opts.l1CompactionTrigger * opts.tableFileSize : ℚ) * (opts.levelFactor : ℚ) ^ (level - 1)

/-- `MaxFileSizeForLevel`: currently `table_file_size` for every level. -/
def maxFileSizeForLevel (opts : DBOptions) (_level : Nat) : Nat :=
  opts.tableFileSize

/-- `config::kMaxMemCompactLevel` (the config header is not among the provided
sources; the value matches stock LevelDB and no property here depends on it). -/
def kMaxMemCompactLevel : Nat := 2

/-- `Status`: the engine's error kinds. -/
inductive Status where
  | ok
  | notFound (msg : String)
  | corruption (msg : String)
  | ioError (msg : String)
  | invalidArgument (msg : String)
  | notSupported (msg : String)
deriving DecidableEq, Repr

/-- `Status::ok()`. -/
def Status.isOk : Status → Bool
  | .ok => true
  | _ => false

/-! ## `FindFile` (binary search over a level's file list) -/

/-- The loop of `FindFile`: binary search on `[left, right)`.  The C++ indexes
`files[mid]` unchecked; here an out-of-range access (impossible in every use,
where `right ≤ files.length`) returns `left`. -/
def findFileAux {K : Type} [LinearOrder K] (files : List (FileMeta K))
    (key : InternalKey K) (left right : Nat) : Nat :=
  if _h : left < right then
    let mid := (left + right) / 2
    match files[mid]? with
    | none => left
    | some f =>
      if ikLt f.largest key then
        findFileAux files key (mid + 1) right
      else
        findFileAux files key left mid
  else
    right
termination_by right - left
decreasing_by
  · omega
  · omega

/-- `FindFile(icmp, files, key)`: index of the first file whose largest key is
`≥ key`, assuming `files` is sorted by largest key. -/
def findFile {K : Type} [LinearOrder K] (files : List (FileMeta K))
    (key : InternalKey K) : Nat :=
  findFileAux files key 0 files.length

/-! ## `GetOverlappingInputs` -/

/-- `AfterFile` applied to the lower bound: file `f` lies completely before the
query range (`f.largest.user_key < user_begin`); a `none` bound never excludes. -/
def beforeRange {K : Type} [LinearOrder K] (ub : Option K) (f : FileMeta K) : Prop :=
  ∃ b, ub = some b ∧ f.largest.uk < b

instance {K : Type} [LinearOrder K] (ub : Option K) (f : FileMeta K) :
    Decidable (beforeRange ub f) :=
  match ub with
  | none => isFalse (by simp [beforeRange])
  | some b => decidable_of_iff (f.largest.uk < b) (by simp [beforeRange])

/-- File `f` lies completely after the query range
(`f.smallest.user_key > user_end`). -/
def afterRange {K : Type} [LinearOrder K] (ue : Option K) (f : FileMeta K) : Prop :=
  ∃ e, ue = some e ∧ e < f.smallest.uk

instance {K : Type} [LinearOrder K] (ue : Option K) (f : FileMeta K) :
    Decidable (afterRange ue f) :=
  match ue with
  | none => isFalse (by simp [afterRange])
  | some e => decidable_of_iff (e < f.smallest.uk) (by simp [afterRange])

/-- File `f` overlaps the user-key query range `[ub, ue]` (the inclusion test
of `Version::GetOverlappingInputs`). -/
def overlapsRange {K : Type} [LinearOrder K] (ub ue : Option K) (f : FileMeta K) : Prop :=
  ¬ beforeRange ub f ∧ ¬ afterRange ue f

instance {K : Type} [LinearOrder K] (ub ue : Option K) (f : FileMeta K) :
    Decidable (overlapsRange ub ue f) :=
  inferInstanceAs (Decidable (¬ beforeRange ub f ∧ ¬ afterRange ue f))

/-- Included level-0 file `f` extends the query range on the left
(`f.smallest.user_key < user_begin`). -/
def extendsLow {K : Type} [LinearOrder K] (ub : Option K) (f : FileMeta K) : Prop :=
  ∃ b, ub = some b ∧ f.smallest.uk < b

instance {K : Type} [LinearOrder K] (ub : Option K) (f : FileMeta K) :
    Decidable (extendsLow ub f) :=
  match ub with
  | none => isFalse (by simp [extendsLow])
  | some b => decidable_of_iff (f.smallest.uk < b) (by simp [extendsLow])

/-- Included level-0 file `f` extends the query range on the right
(`f.largest.user_key > user_end`). -/
def extendsHigh {K : Type} [LinearOrder K] (ue : Option K) (f : FileMeta K) : Prop :=
  ∃ e, ue = some e ∧ e < f.largest.uk

instance {K : Type} [LinearOrder K] (ue : Option K) (f : FileMeta K) :
    Decidable (extendsHigh ue f) :=
  match ue with
  | none => isFalse (by simp [extendsHigh])
  | some e => decidable_of_iff (e < f.largest.uk) (by simp [extendsHigh])

/-- One pass of the level-0 loop of `GetOverlappingInputs` over the file list:
either the pass completes and returns the collected overlapping files
(`Sum.inr`), or some included file extends the query range, the collected
files are discarded and the expanded bounds are returned (`Sum.inl`) so the
sweep restarts from the beginning — exactly the `inputs->clear(); i = 0;`
branch of the C++ loop. -/
def sweepL0 {K : Type} [LinearOrder K] (ub ue : Option K) :
    List (FileMeta K) → Sum (Option K × Option K) (List (FileMeta K))
  | [] => Sum.inr []
  | f :: rest =>
    if beforeRange ub f ∨ afterRange ue f then
      sweepL0 ub ue rest
    else if extendsLow ub f then
      Sum.inl (some f.smallest.uk, ue)
    else if extendsHigh ue f then
      Sum.inl (ub, some f.largest.uk)
    else
      match sweepL0 ub ue rest with
      | Sum.inl p => Sum.inl p
      | Sum.inr out => Sum.inr (f :: out)

/-- Number of files that would extend the query range on the left. -/
def lowCount {K : Type} [LinearOrder K] (files : List (FileMeta K)) (ub : Option K) : Nat :=
  files.countP (fun f => decide (extendsLow ub f))

/-- Number of files that would extend the query range on the right. -/
def highCount {K : Type} [LinearOrder K] (files : List (FileMeta K)) (ue : Option K) : Nat :=
  files.countP (fun f => decide (extendsHigh ue f))

/-- The level-0 restart loop, driven by a sweep counter.  Each restart strictly
decreases `lowCount + highCount` (proved below), so `2*|files| + 1` sweeps
always reach the fixpoint; the fuel-exhausted branch is unreachable. -/
def gOIL0Fuel {K : Type} [LinearOrder K] (files : List (FileMeta K)) :
    Nat → Option K → Option K → Option K × Option K × List (FileMeta K)
  | 0, ub, ue => (ub, ue, [])
  | fuel + 1, ub, ue =>
    match sweepL0 ub ue files with
    | Sum.inr out => (ub, ue, out)
    | Sum.inl (ub', ue') => gOIL0Fuel files fuel ub' ue'

/-- `Version::GetOverlappingInputs` at level 0, also returning the final
(expanded) user-key bounds. -/
def getOverlappingL0 {K : Type} [LinearOrder K] (files : List (FileMeta K))
    (ub ue : Option K) : Option K × Option K × List (FileMeta K) :=
  gOIL0Fuel files (2 * files.length + 1) ub ue

/-- `Version::GetOverlappingInputs(level, begin, end, inputs)` over the given
level's file list (bounds are the user keys of the `begin`/`end` internal
keys; `none` models a NULL pointer).  For levels ≥ 1 the loop is a plain
filter; for level 0 it restarts whenever an included file expands the range. -/
def getOverlappingInputs {K : Type} [LinearOrder K] (level : Nat)
    (files : List (FileMeta K)) (ub ue : Option K) : List (FileMeta K) :=
  if level = 0 then (getOverlappingL0 files ub ue).2.2
  else files.filter (fun f => decide (overlapsRange ub ue f))

/-! ## `VersionEdit` and `VersionSet::Builder` -/

/-- `VersionEdit` in decoded form (the codec itself is out of scope here):
each counter field is optional, mirroring the `has_*` flags. -/
structure VersionEdit (K : Type) where
  comparatorName : Option String
  logNumber : Option Nat
  prevLogNumber : Option Nat
  nextFileNumber : Option Nat
  lastSequence : Option Nat
  compactPointers : List (Nat × InternalKey K)
  deletedFiles : List (Nat × Nat)
  newFiles : List (Nat × FileMeta K)
  updatedFiles : List (Nat × Nat)
  truncateKey : Option (InternalKey K)
  maxLevel : Nat
deriving DecidableEq, Repr

/-- The all-absent `VersionEdit`. -/
def emptyEdit {K : Type} : VersionEdit K :=
  ⟨none, none, none, none, none, [], [], [], [], none, 0⟩

/-- The seek budget assigned in `Builder::Apply` to each newly added file:
`file_size / 16384`, raised to `100` when below it. -/
def initAllowedSeeks (fileSize : Nat) : Nat :=
  let a := fileSize / 16384
  if a < 100 then 100 else a

/-- `Builder::BySmallestKey`: order by smallest internal key, ties broken by
file number. -/
def bySmallest {K : Type} [LinearOrder K] (f1 f2 : FileMeta K) : Prop :=
  ikLt f1.smallest f2.smallest ∨ (ikEquiv f1.smallest f2.smallest ∧ f1.number < f2.number)

instance {K : Type} [LinearOrder K] (f1 f2 : FileMeta K) : Decidable (bySmallest f1 f2) :=
  inferInstanceAs (Decidable
    (ikLt f1.smallest f2.smallest ∨ (ikEquiv f1.smallest f2.smallest ∧ f1.number < f2.number)))

/-- Insertion into the builder's `added_files` set (a `std::set` ordered by
`BySmallestKey`; an element comparing equal to an existing one is dropped). -/
def insertBySmallest {K : Type} [LinearOrder K] (f : FileMeta K) :
    List (FileMeta K) → List (FileMeta K)
  | [] => [f]
  | g :: rest =>
    if bySmallest f g then f :: g :: rest
    else if bySmallest g f then g :: insertBySmallest f rest
    else g :: rest

/-- Per-level builder state (`Builder::LevelState`).  The deleted and updated
sets are kept as lists consulted only for membership. -/
structure BuilderLevel (K : Type) where
  deletedFiles : List Nat
  addedFiles : List (FileMeta K)
  updatedFiles : List Nat
deriving DecidableEq, Repr

/-- The empty per-level state. -/
def emptyBuilderLevel {K : Type} : BuilderLevel K := ⟨[], [], []⟩

/-- `VersionSet::Builder`: the retained base version's files, the per-level
accumulated state and the truncate key copied from the last applied edit. -/
structure BuilderState (K : Type) where
  base : List (List (FileMeta K))
  levels : List (BuilderLevel K)
  truncatedKey : Option (InternalKey K)
deriving DecidableEq, Repr

/-- `Builder::Builder(vset, base)`. -/
def builderInit {K : Type} (base : List (List (FileMeta K))) : BuilderState K :=
  ⟨base, base.map (fun _ => emptyBuilderLevel), none⟩

/-- Pad a list with copies of `d` until it has at least `n` entries. -/
def padTo {A : Type} (l : List A) (n : Nat) (d : A) : List A :=
  l ++ List.replicate (n - l.length) d

/-- Replace the `i`-th entry of a list by `g` applied to it (no-op out of
range, matching the in-range-only C++ accesses guarded by asserts). -/
def modifyAt {A : Type} (g : A → A) : List A → Nat → List A
  | [], _ => []
  | a :: rest, 0 => g a :: rest
  | a :: rest, i + 1 => a :: modifyAt g rest i


/-- Add a number to a membership set kept as a list. -/
def insertNumber (n : Nat) (l : List Nat) : List Nat :=
  if n ∈ l then l else n :: l

/-- `Builder::Apply(edit)` together with the version set's compaction-pointer
vector, which `Apply` mutates directly in the non-sublevel branch (note this
mutation is not rolled back if the caller later fails).  Returns the updated
compaction pointers and builder state. -/
def applyEdit {K : Type} [LinearOrder K] (opts : DBOptions)
    (cp : List (Option (InternalKey K))) (bst : BuilderState K)
    (edit : VersionEdit K) : List (Option (InternalKey K)) × BuilderState K :=
  let cp := if opts.enableSublevel then cp else padTo cp (edit.maxLevel + 2) none
  let levels :=
    if opts.enableSublevel then bst.levels
    else padTo bst.levels (edit.maxLevel + 2) emptyBuilderLevel
  let cp :=
    if opts.enableSublevel then cp
    else edit.compactPointers.foldl (fun cp p => cp.set p.1 (some p.2)) cp
  let levels := edit.deletedFiles.foldl
    (fun levels p =>
      modifyAt (fun ls => { ls with deletedFiles := insertNumber p.2 ls.deletedFiles })
        levels p.1)
    levels
  let levels := edit.newFiles.foldl
    (fun levels p =>
      let f := { p.2 with allowedSeeks := initAllowedSeeks p.2.fileSize }
      modifyAt (fun ls =>
          { ls with
            deletedFiles := ls.deletedFiles.filter (fun n => n ≠ f.number),
            addedFiles := insertBySmallest f ls.addedFiles })
        levels p.1)
    levels
  let levels := edit.updatedFiles.foldl
    (fun levels p =>
      modifyAt (fun ls => { ls with updatedFiles := insertNumber p.2 ls.updatedFiles })
        levels p.1)
    levels
  (cp, { base := bst.base, levels := levels, truncatedKey := edit.truncateKey })

/-- `Builder::MaybeAddFile(v, level, f)` as a fold step: drop deleted files,
rewrite updated files' smallest key to the truncate key (sublevel mode only),
and append everything else.  The C++ non-overlap assertion at levels > 0 is a
debug check, not a guard, and is treated as a proof obligation below. -/
def maybeAddFile {K : Type} [LinearOrder K] (ls : BuilderLevel K)
    (tk : Option (InternalKey K)) (acc : List (FileMeta K)) (f : FileMeta K) :
    List (FileMeta K) :=
  if f.number ∈ ls.deletedFiles then acc
  else if f.number ∈ ls.updatedFiles then
    acc ++ [{ f with smallest := tk.getD f.smallest }]
  else acc ++ [f]

/-- The merge inside `Builder::SaveTo`: interleave the base level's files with
the added set in `BySmallestKey` order; on ties the base file is emitted first
(`std::upper_bound`). -/
def mergeBySmallest {K : Type} [LinearOrder K] :
    List (FileMeta K) → List (FileMeta K) → List (FileMeta K)
  | base, [] => base
  | base, a :: rest =>
    base.takeWhile (fun b => decide (¬ bySmallest a b)) ++
      a :: mergeBySmallest (base.dropWhile (fun b => decide (¬ bySmallest a b))) rest

/-- One level of `Builder::SaveTo`: merge base and added files, then run
`MaybeAddFile` over the merged stream. -/
def saveToLevel {K : Type} [LinearOrder K] (bst : BuilderState K) (level : Nat) :
    List (FileMeta K) :=
  (mergeBySmallest (bst.base.getD level []) (bst.levels.getD level emptyBuilderLevel).addedFiles).foldl
    (maybeAddFile (bst.levels.getD level emptyBuilderLevel) bst.truncatedKey) []

/-- `Builder::SaveTo(v)`: the per-level file lists of the produced version.
A fresh `Version` starts with `kMaxMemCompactLevel + 1` levels and is resized
up to the builder's level count. -/
def saveTo {K : Type} [LinearOrder K] (bst : BuilderState K) :
    List (List (FileMeta K)) :=
  (List.range (max (kMaxMemCompactLevel + 1) bst.levels.length)).map
    (fun level => if level < bst.levels.length then saveToLevel bst level else [])

/-! ## `Version`, `Finalize`, `VersionSet::LogAndApply` -/

/-- A `Version` (non-sublevel fields): per-level file lists, the seek-triggered
compaction candidate and the finalization scores.  `compaction_level` and
`file_to_compact_level` are C++ `int`s initialized to `-1`. -/
structure Version (K : Type) where
  files : List (List (FileMeta K))
  fileToCompact : Option (FileMeta K)
  fileToCompactLevel : Int
  compactionScore : ℚ
  compactionLevel : Int
deriving DecidableEq, Repr

/-- A freshly constructed `Version` holding the given file lists. -/
def mkVersion {K : Type} (files : List (List (FileMeta K))) : Version K :=
  ⟨files, none, -1, -1, -1⟩

/-- The fold of `VersionSet::Finalize` over levels `0 .. size-2` (non-sublevel
branch): level-0 scores by file count over `l0_compaction_trigger`, higher
levels by bytes over `MaxBytesForLevel`; keep the argmax (strictly-greater
update, so the first best level wins). -/
def finalizeScores (opts : DBOptions) (files : List (List (FileMeta K))) :
    Int × ℚ :=
  (List.range (files.length - 1)).foldl
    (fun best level =>
      let score : ℚ :=
        if level = 0 then
          ((files.getD 0 []).length : ℚ) / (opts.l0CompactionTrigger : ℚ)
        else
          (totalFileSize (files.getD level []) : ℚ) / maxBytesForLevel opts level
      if best.2 < score then ((level : Int), score) else best)
    (-1, -1)

/-- `VersionSet::Finalize(v)` (non-sublevel branch). -/
def finalize {K : Type} (opts : DBOptions) (v : Version K) : Version K :=
  let best := finalizeScores opts v.files
  { v with compactionLevel := best.1, compactionScore := best.2 }

/-- The mutable fields of `VersionSet` touched by `LogAndApply`:  the current
version, the four counters, the manifest file number, whether the descriptor
log/file handles are open, and the compaction pointers. -/
structure VSState (K : Type) where
  current : Version K
  logNumber : Nat
  prevLogNumber : Nat
  nextFileNumber : Nat
  lastSequence : Nat
  manifestFileNumber : Nat
  descriptorOpen : Bool
  compactPointer : List (Option (InternalKey K))
deriving DecidableEq, Repr

/-- Outcomes of the fallible environment calls made by `LogAndApply`, one per
call site (`Env::NewWritableFile`, the snapshot record write, the edit record
write, `WritableFile::Sync`, `SetCurrentFile`). -/
structure ManifestEnv where
  newFile : Status
  snapshot : Status
  addRecord : Status
  sync : Status
  setCurrent : Status
deriving DecidableEq, Repr

/-- File-system side effects performed by `LogAndApply` besides the record
write itself (`DescriptorFileName(dbname, n)` is abbreviated to its number). -/
inductive FsEffect where
  | deleteFile (number : Nat)
  | deleteCurrent
  | setCurrentFile (number : Nat)
deriving DecidableEq, Repr

/-- `VersionSet::LogAndApply(edit, mu)` for `enableSublevel = false`: default
the edit's counters from the set, build and finalize the new version, create a
new MANIFEST when no descriptor is open, append and sync the edit record,
install the CURRENT pointer (or delete the alternate manifest in rotating
mode), and only on success install the new version and advance the log
numbers; on failure the new version is discarded and a freshly created
MANIFEST is deleted with both handles closed. -/
def logAndApply {K : Type} [LinearOrder K] (opts : DBOptions) (env : ManifestEnv)
    (st : VSState K) (edit : VersionEdit K) :
    Status × VSState K × List FsEffect :=
  let edit := if edit.logNumber.isSome then edit
              else { edit with logNumber := some st.logNumber }
  let edit := if edit.prevLogNumber.isSome then edit
              else { edit with prevLogNumber := some st.prevLogNumber }
  let edit := { edit with nextFileNumber := some st.nextFileNumber,
                          lastSequence := some st.lastSequence }
  let applied := applyEdit opts st.compactPointer (builderInit st.current.files) edit
  let v : Version K := finalize opts (mkVersion (saveTo applied.2))
  let newManifest := !st.descriptorOpen
  let s1 : Status :=
    if newManifest then (if env.newFile.isOk then env.snapshot else env.newFile)
    else .ok
  let createdWriter := newManifest && env.newFile.isOk
  let s2 := if s1.isOk then env.addRecord else s1
  let s3 := if s2.isOk then env.sync else s2
  let step4 : Status × List FsEffect :=
    if s3.isOk && newManifest then
      if !opts.rotatingManifest then
        (env.setCurrent, [.setCurrentFile st.manifestFileNumber])
      else
        (s3, [.deleteFile (3 - st.manifestFileNumber), .deleteCurrent])
    else (s3, [])
  if step4.1.isOk then
    (step4.1,
     { st with current := v,
               logNumber := edit.logNumber.getD st.logNumber,
               prevLogNumber := edit.prevLogNumber.getD st.prevLogNumber,
               descriptorOpen := st.descriptorOpen || createdWriter,
               compactPointer := applied.1 },
     step4.2)
  else
    (step4.1,
     { st with compactPointer := applied.1,
               descriptorOpen := if newManifest then false else st.descriptorOpen },
     step4.2 ++ (if newManifest then [.deleteFile st.manifestFileNumber] else []))

/-! ## `VersionSet::Recover`: per-candidate counter bookkeeping -/

/-- The `have_*` flags tracked while folding a candidate MANIFEST's edits. -/
structure RecFlags where
  haveLogNumber : Bool
  havePrevLogNumber : Bool
  haveNextFile : Bool
  haveLastSequence : Bool
deriving DecidableEq, Repr

/-- The counter tuple tracked while folding a candidate MANIFEST's edits. -/
structure RecCounters where
  nextFile : Nat
  lastSeq : Nat
  logNumber : Nat
  prevLogNumber : Nat
deriving DecidableEq, Repr

/-- The record loop of `VersionSet::Recover` over one candidate's decoded
edits: stop at the first non-ok status (the `while … && s.ok()` condition);
for each edit, a comparator mismatch makes the status `InvalidArgument`, and
the counter fields update the tracked tuple even in that same iteration.
The builder application (`builder->Apply`) affects neither the status nor the
counters and is not tracked here. -/
def recoverScan {K : Type} (cmpName : String) :
    Status → RecFlags → RecCounters → List (VersionEdit K) →
    Status × RecFlags × RecCounters
  | s, fl, ct, [] => (s, fl, ct)
  | s, fl, ct, e :: rest =>
    if s.isOk = false then (s, fl, ct)
    else
      let s :=
        match e.comparatorName with
        | some n =>
          if n ≠ cmpName then
            Status.invalidArgument (n ++ " does not match existing comparator ")
          else s
        | none => s
      let fl := { fl with
        haveLogNumber := fl.haveLogNumber || e.logNumber.isSome,
        havePrevLogNumber := fl.havePrevLogNumber || e.prevLogNumber.isSome,
        haveNextFile := fl.haveNextFile || e.nextFileNumber.isSome,
        haveLastSequence := fl.haveLastSequence || e.lastSequence.isSome }
      let ct := { ct with
        logNumber := e.logNumber.getD ct.logNumber,
        prevLogNumber := e.prevLogNumber.getD ct.prevLogNumber,
        nextFile := e.nextFileNumber.getD ct.nextFile,
        lastSeq := e.lastSequence.getD ct.lastSeq }
      recoverScan cmpName s fl ct rest

/-- The post-fold validation of one MANIFEST candidate: reject on any decode or
comparator error, then require `next_file`, `log_number` and `last_sequence`
(in that order of error messages); a missing `prev_log_number` is defaulted to
`0`.  Returns the candidate's final counter tuple on acceptance. -/
def recoverCheck (r : Status × RecFlags × RecCounters) : Except Status RecCounters :=
  if r.1.isOk = false then .error r.1
  else if r.2.1.haveNextFile = false then
    .error (.corruption "no next_file entry in descriptor")
  else if r.2.1.haveLogNumber = false then
    .error (.corruption "no log_number entry in descriptor")
  else if r.2.1.haveLastSequence = false then
    .error (.corruption "no last_seq_number entry in descriptor")
  else
    .ok { r.2.2 with
          prevLogNumber := if r.2.1.havePrevLogNumber then r.2.2.prevLogNumber else 0 }

/-- Processing of one MANIFEST candidate in `VersionSet::Recover`, from its
successfully read record sequence to acceptance (with final counters) or
rejection (with the recorded status). -/
def recoverCandidate {K : Type} (cmpName : String) (edits : List (VersionEdit K)) :
    Except Status RecCounters :=
  recoverCheck (recoverScan cmpName .ok ⟨false, false, false, false⟩ ⟨0, 0, 0, 0⟩ edits)

/-! ## Compaction planner -/

/-- A `Compaction` plan (non-sublevel fields): source level, the two input
lists, the grandparent files, the byte caps recorded at construction, and the
compaction-pointer update seeded into the embedded `VersionEdit`. -/
structure Compaction (K : Type) where
  level : Nat
  inputs0 : List (FileMeta K)
  inputs1 : List (FileMeta K)
  grandparents : List (FileMeta K)
  maxGPOverlapBytes : Nat
  editCompactPointer : Option (Nat × InternalKey K)
deriving DecidableEq, Repr

/-- `Compaction::IsTrivialMove()`: in non-sublevel mode, one file at the source
level, none at the next, and — only when `enable_should_stop_before` is set —
bounded grandparent overlap; in sublevel mode, a single input file overall. -/
def isTrivialMove {K : Type} (opts : DBOptions) (c : Compaction K) : Bool :=
  if !opts.enableSublevel then
    c.inputs0.length == 1 && c.inputs1.length == 0 &&
      (!opts.enableShouldStopBefore ||
        totalFileSize c.grandparents ≤ c.maxGPOverlapBytes)
  else
    (c.inputs0.length + c.inputs1.length) == 1

/-- `VersionSet::GetRange(inputs)`: the smallest and largest internal keys
over a non-empty input list (`none` on an empty list, which the C++ forbids
by assertion). -/
def getRange {K : Type} [LinearOrder K] :
    List (FileMeta K) → Option (InternalKey K × InternalKey K)
  | [] => none
  | f :: rest =>
    some (rest.foldl
      (fun r g =>
        (if ikLt g.smallest r.1 then g.smallest else r.1,
         if ikLt r.2 g.largest then g.largest else r.2))
      (f.smallest, f.largest))

/-- The state read and written by the planner: the current version and the
per-level compaction pointers. -/
structure PlannerState (K : Type) where
  v : Version K
  compactPointer : List (Option (InternalKey K))
deriving DecidableEq, Repr

/-- `VersionSet::SetupOtherInputs(c)` for a seed list at `level`: collect the
level+1 overlap, optionally grow the level inputs without changing the level+1
pick, collect grandparents, and advance the compaction pointer of `level` to
the largest input key (recorded both in the set and in the compaction's
edit).  The C++ asserts the seed non-empty; an empty seed returns an empty
plan here. -/
def setupOtherInputs {K : Type} [LinearOrder K] (opts : DBOptions) (v : Version K)
    (cp : List (Option (InternalKey K))) (level : Nat)
    (inputs0 : List (FileMeta K)) :
    Compaction K × List (Option (InternalKey K)) :=
  match getRange inputs0 with
  | none =>
    (⟨level, [], [], [], maxGrandParentOverlapBytes opts, none⟩, cp)
  | some (smallest, largest) =>
    let inputs1 := getOverlappingInputs (level + 1) (v.files.getD (level + 1) [])
      (some smallest.uk) (some largest.uk)
    let all0 := getRange (inputs0 ++ inputs1)
    let grown :=
      if inputs1 ≠ [] then
        match all0 with
        | some (allStart, allLimit) =>
          let expanded0 := getOverlappingInputs level (v.files.getD level [])
            (some allStart.uk) (some allLimit.uk)
          if inputs0.length < expanded0.length ∧
              totalFileSize inputs1 + totalFileSize expanded0 <
                expandedCompactionByteSizeLimit opts then
            match getRange expanded0 with
            | some (newStart, newLimit) =>
              let expanded1 := getOverlappingInputs (level + 1)
                (v.files.getD (level + 1) []) (some newStart.uk) (some newLimit.uk)
              if expanded1.length = inputs1.length then
                (expanded0, expanded1, newStart, newLimit)
              else (inputs0, inputs1, smallest, largest)
            | none => (inputs0, inputs1, smallest, largest)
          else (inputs0, inputs1, smallest, largest)
        | none => (inputs0, inputs1, smallest, largest)
      else (inputs0, inputs1, smallest, largest)
    let allRange := getRange (grown.1 ++ grown.2.1)
    let grandparents :=
      match allRange with
      | some (allStart, allLimit) =>
        if level + 2 < v.files.length then
          getOverlappingInputs (level + 2) (v.files.getD (level + 2) [])
            (some allStart.uk) (some allLimit.uk)
        else []
      | none => []
    let largest := grown.2.2.2
    (⟨level, grown.1, grown.2.1, grandparents, maxGrandParentOverlapBytes opts,
      some (level, largest)⟩,
     cp.set level (some largest))

/-- The size-triggered seed of `VersionSet::PickCompaction` (non-sublevel):
the first file at the level whose largest key is strictly after the level's
compaction pointer, wrapping to the level's first file when none qualifies
(an empty compaction pointer accepts every file).  The C++ indexes
`files[0]` unchecked on the wrap; an empty level yields an empty seed here. -/
def pickSizeSeedFiles {K : Type} [LinearOrder K] (files : List (FileMeta K))
    (cptr : Option (InternalKey K)) : List (FileMeta K) :=
  match files.find? (fun f =>
      match cptr with
      | none => true
      | some c => decide (ikLt c f.largest)) with
  | some f => [f]
  | none =>
    match files.head? with
    | some f => [f]
    | none => []

/-- The tail of `VersionSet::PickCompaction` after the seed is chosen: widen a
level-0 seed to all overlapping level-0 files (the `GetRange` +
`GetOverlappingInputs(0, …)` re-gather), then complete the plan through
`SetupOtherInputs`. -/
def pickPlanFromSeed {K : Type} [LinearOrder K] (opts : DBOptions)
    (st : PlannerState K) (level : Nat) (inputs0 : List (FileMeta K)) :
    Compaction K × PlannerState K :=
  let inputs0 :=
    if level = 0 then
      match getRange inputs0 with
      | some (smallest, largest) =>
        getOverlappingInputs 0 (st.v.files.getD 0 [])
          (some smallest.uk) (some largest.uk)
      | none => inputs0
    else inputs0
  let r := setupOtherInputs opts st.v st.compactPointer level inputs0
  (r.1, { st with compactPointer := r.2 })

/-- `VersionSet::PickCompaction(allow_seek_compaction)` for
`enableSublevel = false` (sublevel input selection is out of scope and yields
no plan here): size-triggered when the current version's compaction score is
at least 1, else seek-triggered when permitted and a seek candidate exists,
else no plan; the seed is then widened over level-0 overlap and completed by
`SetupOtherInputs`. -/
def pickCompaction {K : Type} [LinearOrder K] (opts : DBOptions)
    (st : PlannerState K) (allowSeek : Bool) :
    Option (Compaction K) × PlannerState K :=
  if opts.enableSublevel then (none, st)
  else
    let sizeCompaction := 1 ≤ st.v.compactionScore
    let seekCompaction := st.v.fileToCompact.isSome
    let seed : Option (Nat × List (FileMeta K)) :=
      if sizeCompaction then
        let level := st.v.compactionLevel.toNat
        some (level,
          pickSizeSeedFiles (st.v.files.getD level [])
            (st.compactPointer.getD level none))
      else if allowSeek && seekCompaction then
        some (st.v.fileToCompactLevel.toNat, st.v.fileToCompact.toList)
      else none
    match seed with
    | none => (none, st)
    | some (level, inputs0) =>
      let r := pickPlanFromSeed opts st level inputs0
      (some r.1, r.2)

/-- The truncation loop of `VersionSet::CompactRange` at levels ≥ 1: keep
accumulating files while the running byte total stays below the limit; the
file that reaches the limit is the last one kept. -/
def truncateInputsGo {K : Type} (limit total : Nat) :
    List (FileMeta K) → List (FileMeta K)
  | [] => []
  | f :: rest =>
    if limit ≤ total + f.fileSize then [f]
    else f :: truncateInputsGo limit (total + f.fileSize) rest

/-- Truncate a `CompactRange` input list to the level's byte cap. -/
def truncateInputs {K : Type} (limit : Nat) (inputs : List (FileMeta K)) :
    List (FileMeta K) :=
  truncateInputsGo limit 0 inputs

/-- The seeded input list of `VersionSet::CompactRange`: all files at the
level overlapping the range, truncated to `MaxFileSizeForLevel` when the level
is at least 1 (level 0 is never truncated because its files may overlap). -/
def compactRangeSeed {K : Type} [LinearOrder K] (opts : DBOptions)
    (st : PlannerState K) (level : Nat) (b e : Option (InternalKey K)) :
    List (FileMeta K) :=
  let inputs := getOverlappingInputs level (st.v.files.getD level [])
    (b.map (fun k => k.uk)) (e.map (fun k => k.uk))
  if 0 < level then truncateInputs (maxFileSizeForLevel opts level) inputs
  else inputs

/-- `VersionSet::CompactRange(level, begin, end)` for
`enableSublevel = false` (the sublevel variant with a non-null `begin` is
explicitly unimplemented in the source and yields no plan): seed with the
overlapping files (`none` when there are none), truncate at levels ≥ 1, and
complete via `SetupOtherInputs`. -/
def compactRange {K : Type} [LinearOrder K] (opts : DBOptions)
    (st : PlannerState K) (level : Nat) (b e : Option (InternalKey K)) :
    Option (Compaction K) × PlannerState K :=
  if opts.enableSublevel then (none, st)
  else
    let inputs := getOverlappingInputs level (st.v.files.getD level [])
      (b.map (fun k => k.uk)) (e.map (fun k => k.uk))
    if inputs = [] then (none, st)
    else
      let r := setupOtherInputs opts st.v st.compactPointer level
        (compactRangeSeed opts st level b e)
      (some r.1, { st with compactPointer := r.2 })

/-! ## `VersionSet::AppendVersion` (reference-count bookkeeping) -/

/-- The version ring's reference-count bookkeeping, with versions named by
identifiers: a reference count per identifier and the current version. -/
structure VersionRing where
  refs : Nat → Nat
  current : Option Nat

/-- `VersionSet::AppendVersion(v)`: unreference the previous current version
(destroying it if its count reaches zero) and make `v` current with one
reference.  The C++ asserts `v->refs_ == 0` and `v != current_` on entry. -/
def appendVersion (r : VersionRing) (v : Nat) : VersionRing :=
  let refs1 : Nat → Nat := fun id =>
    if some id = r.current then r.refs id - 1 else r.refs id
  { refs := fun id => if id = v then refs1 id + 1 else refs1 id,
    current := some v }

/-- The `VersionSet` constructor's version bookkeeping:
`AppendVersion(new Version(this))` on an empty ring, the fresh version having
identifier `0`. -/
def versionSetInit : VersionRing :=
  appendVersion ⟨fun _ => 0, none⟩ 0

/-! ## Specification-side predicates -/

/-- A level's file list sorted ascending by largest key (adjacent form). -/
def sortedByLargest {K : Type} [LinearOrder K] : List (FileMeta K) → Prop
  | [] => True
  | [_] => True
  | f :: g :: rest => ikLe f.largest g.largest ∧ sortedByLargest (g :: rest)

instance sortedByLargestDec {K : Type} [LinearOrder K] :
    (files : List (FileMeta K)) → Decidable (sortedByLargest files)
  | [] => isTrue trivial
  | [_] => isTrue trivial
  | f :: g :: rest =>
    have : Decidable (sortedByLargest (g :: rest)) := sortedByLargestDec (g :: rest)
    inferInstanceAs (Decidable (ikLe f.largest g.largest ∧ sortedByLargest (g :: rest)))

/-- Adjacent files at a level are disjoint: each file's largest key lies
strictly before the next file's smallest key (the assertion checked by
`Builder::SaveTo` and `Builder::MaybeAddFile` at levels ≥ 1). -/
def adjacentDisjoint {K : Type} [LinearOrder K] : List (FileMeta K) → Prop
  | [] => True
  | [_] => True
  | f :: g :: rest => ikLt f.largest g.smallest ∧ adjacentDisjoint (g :: rest)

instance adjacentDisjointDec {K : Type} [LinearOrder K] :
    (files : List (FileMeta K)) → Decidable (adjacentDisjoint files)
  | [] => isTrue trivial
  | [_] => isTrue trivial
  | f :: g :: rest =>
    have : Decidable (adjacentDisjoint (g :: rest)) := adjacentDisjointDec (g :: rest)
    inferInstanceAs (Decidable (ikLt f.largest g.smallest ∧ adjacentDisjoint (g :: rest)))

/-- The lower user-key bound `ub'` equals `ub` or strictly lowers it (how the
level-0 sweep may move the lower bound). -/
def lowWider {K : Type} [LinearOrder K] (ub ub' : Option K) : Prop :=
  ub' = ub ∨ ∃ b b', ub = some b ∧ ub' = some b' ∧ b' < b

/-- The upper user-key bound `ue'` equals `ue` or strictly raises it. -/
def highWider {K : Type} [LinearOrder K] (ue ue' : Option K) : Prop :=
  ue' = ue ∨ ∃ e e', ue = some e ∧ ue' = some e' ∧ e < e'

/-- A file qualifies as the size-triggered seed: the level's compaction pointer
is empty, or the file's largest key lies strictly after it. -/
def cptrPasses {K : Type} [LinearOrder K] (cptr : Option (InternalKey K))
    (f : FileMeta K) : Prop :=
  cptr = none ∨ ∃ ck, cptr = some ck ∧ ikLt ck f.largest

instance {K : Type} [LinearOrder K] (cptr : Option (InternalKey K)) (f : FileMeta K) :
    Decidable (cptrPasses cptr f) :=
  match cptr with
  | none => isTrue (Or.inl rfl)
  | some c =>
    decidable_of_iff (ikLt c f.largest) (by
      constructor
      · intro h; exact Or.inr ⟨c, rfl, h⟩
      · rintro (h | ⟨ck, hck, h⟩)
        · cases h
        · cases hck; exact h)

/-! ## Concrete sample data (used by witnesses and counterexamples) -/

/-- A concrete internal key over `K := Nat`. -/
def sIK (u s t : Nat) : InternalKey Nat := ⟨u, s, t⟩

/-- A concrete file over `K := Nat` with keys at sequence 5, kind 1. -/
def sFM (n sz lo hi : Nat) : FileMeta Nat := ⟨n, sz, 0, sIK lo 5 1, sIK hi 5 1, 0⟩

/-- Concrete options: `l0_compaction_trigger = 4`, `l1_compaction_trigger = 1`,
`level_factor = 1`, `table_file_size = 10`, non-sublevel, with
`enable_should_stop_before` and `rotating_manifest` off. -/
def sOpts : DBOptions := ⟨4, 1, 1, 10, false, false, false⟩

/-- A concrete planner state: level 1 holds one 30-byte file spanning user keys
0–5, level 3 holds one 100-byte file spanning 0–9; the current version is
size-triggered at level 1 with score 2. -/
def sPlanner : PlannerState Nat :=
  ⟨⟨[[], [sFM 1 30 0 5], [], [sFM 9 100 0 9]], none, -1, 2, 1⟩,
   [none, none, none, none]⟩

/-- The compaction plan `pickCompaction sOpts sPlanner false` produces. -/
def sCompaction : Compaction Nat :=
  ⟨1, [sFM 1 30 0 5], [], [sFM 9 100 0 9], 10, some (1, sIK 5 5 1)⟩

/-- A manifest environment whose edit-record append fails. -/
def sEnv : ManifestEnv := ⟨.ok, .ok, .ioError "MANIFEST write failed", .ok, .ok⟩

/-- A concrete `VersionSet` state with no open descriptor. -/
def sVSState : VSState Nat :=
  ⟨mkVersion [[], [sFM 1 30 0 5], []], 5, 0, 7, 40, 1, false, [none, none, none]⟩

/-- An edit adding one 20-byte file at level 1. -/
def sEdit : VersionEdit Nat :=
  { emptyEdit with newFiles := [(1, sFM 2 20 3 5)], maxLevel := 1 }

/-- A base version with one level-1 file. -/
def sBase : List (List (FileMeta Nat)) := [[], [sFM 1 10 0 2]]

/-- A builder over `sBase`, after applying `sEdit`. -/
def sBuilder : BuilderState Nat :=
  (applyEdit sOpts [] (builderInit sBase) sEdit).2

/-- The base file of `sBuilder`'s level 1. -/
def sSavedA : FileMeta Nat := sFM 1 10 0 2

/-- The added file of `sBuilder`'s level 1 (seek budget assigned by `Apply`). -/
def sSavedB : FileMeta Nat := { sFM 2 20 3 5 with allowedSeeks := 100 }

/-- A decoded MANIFEST candidate supplying `log_number`, `next_file_number` and
`last_sequence` but no `prev_log_number`. -/
def sC3Missing : List (VersionEdit Nat) :=
  [{ emptyEdit with logNumber := some 2, nextFileNumber := some 3,
                    lastSequence := some 50 }]

/-- A decoded MANIFEST candidate supplying all four counters. -/
def sC3Full : List (VersionEdit Nat) :=
  [{ emptyEdit with logNumber := some 2, prevLogNumber := some 1,
                    nextFileNumber := some 3, lastSequence := some 50 }]

/-- A sorted-by-largest file list for exercising `findFile`. -/
def sFindFiles : List (FileMeta Nat) := [sFM 1 10 0 2, sFM 2 10 4 6, sFM 3 10 8 9]

/-- An empty version ring. -/
def sRing : VersionRing := ⟨fun _ => 0, none⟩

/-! ## Order lemmas for the internal key comparator -/

theorem ikLt_irrefl {K : Type} [LinearOrder K] (a : InternalKey K) : ¬ ikLt a a := by
  rintro (h | ⟨_, h⟩)
  · exact lt_irrefl _ h
  · omega

theorem ikLt_trans {K : Type} [LinearOrder K] {a b c : InternalKey K}
    (h1 : ikLt a b) (h2 : ikLt b c) : ikLt a c := by
  rcases h1 with h1 | ⟨e1, t1⟩ <;> rcases h2 with h2 | ⟨e2, t2⟩
  · exact Or.inl (lt_trans h1 h2)
  · exact Or.inl (e2 ▸ h1)
  · exact Or.inl (by rw [e1]; exact h2)
  · exact Or.inr ⟨e1.trans e2, by omega⟩

theorem ikLt_asymm {K : Type} [LinearOrder K] {a b : InternalKey K}
    (h : ikLt a b) : ¬ ikLt b a :=
  fun h2 => ikLt_irrefl a (ikLt_trans h h2)

theorem ikLt_trichotomy {K : Type} [LinearOrder K] (a b : InternalKey K) :
    ikLt a b ∨ ikEquiv a b ∨ ikLt b a := by
  rcases lt_trichotomy a.uk b.uk with h | h | h
  · exact Or.inl (Or.inl h)
  · rcases Nat.lt_trichotomy (ikTrailer a) (ikTrailer b) with ht | ht | ht
    · exact Or.inr (Or.inr (Or.inr ⟨h.symm, ht⟩))
    · exact Or.inr (Or.inl ⟨h, ht⟩)
    · exact Or.inl (Or.inr ⟨h, ht⟩)
  · exact Or.inr (Or.inr (Or.inl h))

theorem ikEquiv_lt_trans {K : Type} [LinearOrder K] {a b c : InternalKey K}
    (h1 : ikEquiv a b) (h2 : ikLt b c) : ikLt a c := by
  obtain ⟨eu, et⟩ := h1
  rcases h2 with h2 | ⟨e2, t2⟩
  · exact Or.inl (eu ▸ h2)
  · exact Or.inr ⟨eu.trans e2, by omega⟩

theorem ikLt_equiv_trans {K : Type} [LinearOrder K] {a b c : InternalKey K}
    (h1 : ikLt a b) (h2 : ikEquiv b c) : ikLt a c := by
  obtain ⟨eu, et⟩ := h2
  rcases h1 with h1 | ⟨e1, t1⟩
  · exact Or.inl (eu ▸ h1)
  · exact Or.inr ⟨e1.trans eu, by omega⟩

theorem ikLe_lt_trans {K : Type} [LinearOrder K] {a b c : InternalKey K}
    (h1 : ikLe a b) (h2 : ikLt b c) : ikLt a c := by
  rcases ikLt_trichotomy a b with h | h | h
  · exact ikLt_trans h h2
  · exact ikEquiv_lt_trans h h2
  · exact absurd h h1

theorem ikLt_le_trans {K : Type} [LinearOrder K] {a b c : InternalKey K}
    (h1 : ikLt a b) (h2 : ikLe b c) : ikLt a c := by
  rcases ikLt_trichotomy b c with h | h | h
  · exact ikLt_trans h1 h
  · exact ikLt_equiv_trans h1 h
  · exact absurd h h2

theorem ikLe_trans {K : Type} [LinearOrder K] {a b c : InternalKey K}
    (h1 : ikLe a b) (h2 : ikLe b c) : ikLe a c :=
  fun h => h2 (ikLt_le_trans h h1)

/-! ## `FindFile` correctness (C9) -/

theorem sortedByLargest_adj {K : Type} [LinearOrder K] :
    ∀ (files : List (FileMeta K)), sortedByLargest files →
      ∀ (i : Nat) (fi fj : FileMeta K), files[i]? = some fi →
        files[i + 1]? = some fj → ikLe fi.largest fj.largest := by
  intro files
  induction files with
  | nil => intro _ i fi fj hfi; simp at hfi
  | cons f rest ih =>
    intro h i fi fj hfi hfj
    cases i with
    | zero =>
      simp only [List.getElem?_cons_zero, Option.some.injEq] at hfi
      subst hfi
      simp only [List.getElem?_cons_succ] at hfj
      cases rest with
      | nil => simp at hfj
      | cons g rest' =>
        simp only [List.getElem?_cons_zero, Option.some.injEq] at hfj
        subst hfj
        exact h.1
    | succ i' =>
      simp only [List.getElem?_cons_succ] at hfi hfj
      cases rest with
      | nil => simp at hfi
      | cons g rest' => exact ih h.2 i' fi fj hfi hfj

theorem sortedByLargest_le {K : Type} [LinearOrder K] {files : List (FileMeta K)}
    (h : sortedByLargest files) :
    ∀ (i j : Nat) (fi fj : FileMeta K), i ≤ j → files[i]? = some fi →
      files[j]? = some fj → ikLe fi.largest fj.largest := by
  have main : ∀ (j i : Nat) (fi fj : FileMeta K), i ≤ j → files[i]? = some fi →
      files[j]? = some fj → ikLe fi.largest fj.largest := by
    intro j
    induction j with
    | zero =>
      intro i fi fj hij hfi hfj
      have : i = 0 := by omega
      subst this
      rw [hfi] at hfj
      cases hfj
      exact ikLt_irrefl _
    | succ j' ih =>
      intro i fi fj hij hfi hfj
      rcases Nat.lt_or_ge i (j' + 1) with hlt | hge
      · obtain ⟨hjlen, _⟩ := List.getElem?_eq_some.mp hfj
        have hjlen' : j' < files.length := by omega
        have hmid : files[j']? = some (files.get ⟨j', hjlen'⟩) :=
          List.getElem?_eq_some.mpr ⟨hjlen', rfl⟩
        have h1 := ih i fi _ (by omega) hfi hmid
        have h2 := sortedByLargest_adj files h j' _ fj hmid hfj
        exact ikLe_trans h1 h2
      · have : i = j' + 1 := by omega
        subst this
        rw [hfi] at hfj
        cases hfj
        exact ikLt_irrefl _
  exact fun i j fi fj hij hfi hfj => main j i fi fj hij hfi hfj

theorem findFileAux_stop {K : Type} [LinearOrder K] (files : List (FileMeta K))
    (key : InternalKey K) {left right : Nat} (h : ¬ left < right) :
    findFileAux files key left right = right := by
  rw [findFileAux]
  simp [h]

theorem findFileAux_step {K : Type} [LinearOrder K] (files : List (FileMeta K))
    (key : InternalKey K) {left right : Nat} (h : left < right)
    {f : FileMeta K} (hf : files[(left + right) / 2]? = some f) :
    findFileAux files key left right =
      if ikLt f.largest key then findFileAux files key ((left + right) / 2 + 1) right
      else findFileAux files key left ((left + right) / 2) := by
  conv => lhs; rw [findFileAux]
  simp only [h, dite_true, hf]

theorem findFileAux_spec {K : Type} [LinearOrder K] (files : List (FileMeta K))
    (key : InternalKey K) (hsorted : sortedByLargest files) :
    ∀ (n left right : Nat), right - left ≤ n → right ≤ files.length →
      (∀ (i : Nat) (fi : FileMeta K), i < left → files[i]? = some fi →
        ikLt fi.largest key) →
      (∀ (i : Nat) (fi : FileMeta K), right ≤ i → files[i]? = some fi →
        ¬ ikLt fi.largest key) →
      left ≤ right →
      left ≤ findFileAux files key left right ∧
      findFileAux files key left right ≤ right ∧
      (∀ (i : Nat) (fi : FileMeta K), i < findFileAux files key left right →
        files[i]? = some fi → ikLt fi.largest key) ∧
      (∀ (i : Nat) (fi : FileMeta K), findFileAux files key left right ≤ i →
        files[i]? = some fi → ¬ ikLt fi.largest key) := by
  intro n
  induction n with
  | zero =>
    intro left right hn hlen hlo hhi hlr
    have heq : left = right := by omega
    subst heq
    rw [findFileAux_stop files key (lt_irrefl left)]
    exact ⟨le_refl _, le_refl _, hlo, hhi⟩
  | succ n ih =>
    intro left right hn hlen hlo hhi hlr
    by_cases hlr' : left < right
    · have hmidlt : (left + right) / 2 < files.length := by omega
      have hmid : files[(left + right) / 2]? =
          some (files.get ⟨(left + right) / 2, hmidlt⟩) :=
        List.getElem?_eq_some.mpr ⟨hmidlt, rfl⟩
      rw [findFileAux_step files key hlr' hmid]
      by_cases hbranch : ikLt (files.get ⟨(left + right) / 2, hmidlt⟩).largest key
      · rw [if_pos hbranch]
        have hlo' : ∀ (i : Nat) (fi : FileMeta K), i < (left + right) / 2 + 1 →
            files[i]? = some fi → ikLt fi.largest key := by
          intro i fi hik hfi
          by_cases hi2 : i < left
          · exact hlo i fi hi2 hfi
          · have hile : i ≤ (left + right) / 2 := by omega
            have hle := sortedByLargest_le hsorted i ((left + right) / 2) fi _ hile hfi hmid
            exact ikLe_lt_trans hle hbranch
        obtain ⟨h1, h2, h3, h4⟩ :=
          ih ((left + right) / 2 + 1) right (by omega) hlen hlo' hhi (by omega)
        exact ⟨by omega, h2, h3, h4⟩
      · rw [if_neg hbranch]
        have hhi' : ∀ (i : Nat) (fi : FileMeta K), (left + right) / 2 ≤ i →
            files[i]? = some fi → ¬ ikLt fi.largest key := by
          intro i fi hik hfi hcon
          have hle := sortedByLargest_le hsorted ((left + right) / 2) i _ fi hik hmid hfi
          exact hbranch (ikLe_lt_trans hle hcon)
        obtain ⟨h1, h2, h3, h4⟩ :=
          ih left ((left + right) / 2) (by omega) (by omega) hlo hhi' (by omega)
        exact ⟨h1, by omega, h3, h4⟩
    · have heq : left = right := by omega
      subst heq
      rw [findFileAux_stop files key hlr']
      exact ⟨le_refl _, le_refl _, hlo, hhi⟩

/-- C9: for every file list sorted ascending by largest key and every target
key, `FindFile` returns the smallest index whose file has largest key `≥ key`
under the internal key comparator (`files.length` when there is none): every
file strictly before the returned index has largest key `< key`, and every
file at or after it has largest key `≥ key`. -/
theorem claim_c9 {K : Type} [LinearOrder K] (files : List (FileMeta K))
    (key : InternalKey K) (hsorted : sortedByLargest files) :
    findFile files key ≤ files.length ∧
    (∀ (i : Nat) (fi : FileMeta K), i < findFile files key →
      files[i]? = some fi → ikLt fi.largest key) ∧
    (∀ (i : Nat) (fi : FileMeta K), findFile files key ≤ i →
      files[i]? = some fi → ikLe key fi.largest) := by
  obtain ⟨h1, h2, h3, h4⟩ :=
    findFileAux_spec files key hsorted files.length 0 files.length
      (by omega) (le_refl _)
      (fun i fi h _ => absurd h (Nat.not_lt_zero i))
      (fun i fi hle hfi => by
        obtain ⟨hi, _⟩ := List.getElem?_eq_some.mp hfi
        omega)
      (Nat.zero_le _)
  exact ⟨h2, h3, fun i fi hle hfi => h4 i fi hle hfi⟩

/-- Witness for C9 at a concrete sorted file list and key. -/
theorem claim_c9_witness :
    sortedByLargest sFindFiles ∧ findFile sFindFiles (sIK 5 5 1) ≤ sFindFiles.length :=
  ⟨by decide, (claim_c9 sFindFiles (sIK 5 5 1) (by decide)).1⟩

/-! ## `AppendVersion` reference counting (C10) -/

/-- C10: the `VersionSet` constructor installs a current version with one
reference, and `AppendVersion`, given an incoming version with zero references
that differs from the current one (the function's entry assertions), leaves it
as the current version holding exactly one reference (readers add theirs
later). -/
theorem claim_c10 :
    (versionSetInit.current = some 0 ∧ versionSetInit.refs 0 = 1) ∧
    (∀ (r : VersionRing) (v : Nat), r.refs v = 0 → r.current ≠ some v →
      (appendVersion r v).current = some v ∧ (appendVersion r v).refs v = 1 ∧
      1 ≤ (appendVersion r v).refs v) := by
  constructor
  · exact ⟨rfl, rfl⟩
  · intro r v h0 hne
    have hrefs : (appendVersion r v).refs v = 1 := by
      show (if v = v then (if some v = r.current then r.refs v - 1 else r.refs v) + 1
            else (if some v = r.current then r.refs v - 1 else r.refs v)) = 1
      rw [if_pos rfl, if_neg (fun h => hne h.symm), h0]
    exact ⟨rfl, hrefs, by omega⟩

/-- Witness for C10 at the empty ring and a fresh version identifier. -/
theorem claim_c10_witness :
    sRing.refs 5 = 0 ∧ sRing.current ≠ some 5 ∧
    (appendVersion sRing 5).current = some 5 ∧ (appendVersion sRing 5).refs 5 = 1 :=
  ⟨rfl, by decide, (claim_c10.2 sRing 5 rfl (by decide)).1,
    (claim_c10.2 sRing 5 rfl (by decide)).2.1⟩

/-! ## `IsTrivialMove` (C6) -/

/-- C6 counterexample: with `enable_should_stop_before` off, the planner
produces a compaction with one source input, no level+1 inputs and 100 bytes
of grandparent overlap against a 10-byte `max_grandparent_overlap_bytes`, yet
`IsTrivialMove` still returns true — the grandparent-bytes bound of the claim
is not necessary for a trivial move. -/
theorem claim_c6_counterexample :
    (pickCompaction sOpts sPlanner false).1 = some sCompaction ∧
    isTrivialMove sOpts sCompaction = true ∧
    sCompaction.inputs0.length = 1 ∧ sCompaction.inputs1.length = 0 ∧
    maxGrandParentOverlapBytes sOpts < totalFileSize sCompaction.grandparents := by
  decide

/-- C6 (amended): in non-sublevel mode `IsTrivialMove` returns true iff the
compaction has exactly one input file at the source level, none at level+1,
and — whenever `enable_should_stop_before` is set — grandparent bytes within
`max_grandparent_overlap_bytes`. -/
theorem claim_c6_amended {K : Type} (opts : DBOptions) (c : Compaction K)
    (hsub : opts.enableSublevel = false) :
    isTrivialMove opts c = true ↔
      (c.inputs0.length = 1 ∧ c.inputs1.length = 0 ∧
       (opts.enableShouldStopBefore = true →
         totalFileSize c.grandparents ≤ c.maxGPOverlapBytes)) := by
  unfold isTrivialMove
  rw [hsub]
  cases hssb : opts.enableShouldStopBefore <;>
    simp [Bool.and_eq_true, Nat.beq_eq_true_eq, decide_eq_true_eq, and_assoc]

/-- Witness for the amended C6 at the counterexample compaction. -/
theorem claim_c6_witness :
    sOpts.enableSublevel = false ∧
    (isTrivialMove sOpts sCompaction = true ↔
      (sCompaction.inputs0.length = 1 ∧ sCompaction.inputs1.length = 0 ∧
       (sOpts.enableShouldStopBefore = true →
         totalFileSize sCompaction.grandparents ≤ sCompaction.maxGPOverlapBytes))) :=
  ⟨rfl, claim_c6_amended sOpts sCompaction rfl⟩

/-! ## `CompactRange` byte cap (C7) -/

theorem totalFileSize_shift {K : Type} (l : List (FileMeta K)) :
    ∀ a : Nat, l.foldl (fun sum f => sum + f.fileSize) a =
      a + totalFileSize l := by
  induction l with
  | nil => intro a; simp [totalFileSize]
  | cons f rest ih =>
    intro a
    show rest.foldl _ (a + f.fileSize) = a + totalFileSize (f :: rest)
    rw [ih (a + f.fileSize)]
    show a + f.fileSize + totalFileSize rest = a + (f :: rest).foldl _ 0
    show a + f.fileSize + totalFileSize rest =
      a + rest.foldl (fun sum g => sum + g.fileSize) (0 + f.fileSize)
    rw [ih (0 + f.fileSize)]
    omega

theorem totalFileSize_cons {K : Type} (f : FileMeta K) (l : List (FileMeta K)) :
    totalFileSize (f :: l) = f.fileSize + totalFileSize l := by
  show l.foldl (fun sum g => sum + g.fileSize) (0 + f.fileSize) = _
  rw [totalFileSize_shift l (0 + f.fileSize)]
  omega

theorem truncateInputsGo_prefix {K : Type} (limit : Nat) :
    ∀ (l : List (FileMeta K)) (total : Nat),
      ∃ tail, l = truncateInputsGo limit total l ++ tail := by
  intro l
  induction l with
  | nil => intro total; exact ⟨[], rfl⟩
  | cons f rest ih =>
    intro total
    unfold truncateInputsGo
    by_cases h : limit ≤ total + f.fileSize
    · rw [if_pos h]; exact ⟨rest, rfl⟩
    · rw [if_neg h]
      obtain ⟨tail, htail⟩ := ih (total + f.fileSize)
      exact ⟨tail, by rw [List.cons_append, ← htail]⟩

theorem truncateInputsGo_dropLast {K : Type} (limit : Nat) :
    ∀ (l : List (FileMeta K)) (total : Nat), total < limit →
      total + totalFileSize ((truncateInputsGo limit total l).dropLast) < limit := by
  intro l
  induction l with
  | nil =>
    intro total h
    simpa [truncateInputsGo, totalFileSize] using h
  | cons f rest ih =>
    intro total h
    unfold truncateInputsGo
    by_cases hlim : limit ≤ total + f.fileSize
    · rw [if_pos hlim]
      simpa [totalFileSize] using h
    · rw [if_neg hlim]
      cases hrest : truncateInputsGo limit (total + f.fileSize) rest with
      | nil =>
        simpa [totalFileSize] using h
      | cons g gs =>
        have hih := ih (total + f.fileSize) (by omega)
        rw [hrest] at hih
        rw [List.dropLast_cons₂, totalFileSize_cons]
        omega

/-- C7 counterexample: at level 1 a single 30-byte file exceeds
`max_file_size_for_level = 10`, yet `CompactRange` keeps it, so the returned
compaction's source-level input bytes exceed the cap (the truncation loop
keeps the file that reaches the limit). -/
theorem claim_c7_counterexample :
    ((compactRange sOpts sPlanner 1 none none).1.map
      (fun c => totalFileSize c.inputs0)) = some 30 ∧
    maxFileSizeForLevel sOpts 1 < 30 := by
  decide

/-- C7 (amended): for levels ≥ 1 (non-sublevel), the seeded overlapping-input
list of `CompactRange` is a prefix of the overlap set, truncated at the first
file that reaches `max_file_size_for_level(level)`; consequently the seed
minus its final file totals strictly below the cap (the final file itself may
push the total past the cap, and `SetupOtherInputs` may grow the list
further). -/
theorem claim_c7_amended {K : Type} [LinearOrder K] (opts : DBOptions)
    (st : PlannerState K) (level : Nat) (b e : Option (InternalKey K))
    (hlevel : 0 < level) (hsize : 0 < opts.tableFileSize) :
    totalFileSize ((compactRangeSeed opts st level b e).dropLast) <
      maxFileSizeForLevel opts level ∧
    ∃ tail, getOverlappingInputs level (st.v.files.getD level [])
      (b.map (fun k => k.uk)) (e.map (fun k => k.uk)) =
        compactRangeSeed opts st level b e ++ tail := by
  unfold compactRangeSeed
  rw [if_pos hlevel]
  constructor
  · have := truncateInputsGo_dropLast (maxFileSizeForLevel opts level)
      (getOverlappingInputs level (st.v.files.getD level [])
        (b.map (fun k => k.uk)) (e.map (fun k => k.uk))) 0 hsize
    simpa [truncateInputs] using this
  · exact truncateInputsGo_prefix _ _ 0

/-- Witness for the amended C7 at the counterexample inputs. -/
theorem claim_c7_witness :
    (0 : Nat) < 1 ∧ 0 < sOpts.tableFileSize ∧
    totalFileSize ((compactRangeSeed sOpts sPlanner 1 none none).dropLast) <
      maxFileSizeForLevel sOpts 1 :=
  ⟨Nat.zero_lt_one, by decide,
    (claim_c7_amended sOpts sPlanner 1 none none Nat.zero_lt_one (by decide)).1⟩

/-! ## Level-0 `GetOverlappingInputs` closure (C5) -/

theorem countP_lt_of_mem {A : Type} {p q : A → Bool} :
    ∀ (l : List A), (∀ x ∈ l, q x = true → p x = true) →
      ∀ x, x ∈ l → p x = true → q x = false → l.countP q < l.countP p := by
  intro l
  induction l with
  | nil => intro _ x hx; cases hx
  | cons a rest ih =>
    intro hsub x hx hp hq
    rcases List.mem_cons.mp hx with rfl | hx'
    · have hle : rest.countP q ≤ rest.countP p :=
        List.countP_mono_left (fun y hy hqy => hsub y (List.mem_cons_of_mem _ hy) hqy)
      rw [List.countP_cons, List.countP_cons, if_pos hp, if_neg (by simp [hq])]
      omega
    · have hlt := ih (fun y hy hqy => hsub y (List.mem_cons_of_mem a hy) hqy) x hx' hp hq
      rw [List.countP_cons, List.countP_cons]
      have hif : (if q a = true then 1 else 0) ≤ (if p a = true then 1 else 0) := by
        by_cases hqa : q a = true
        · rw [if_pos hqa, if_pos (hsub a (List.mem_cons_self a rest) hqa)]
        · rw [if_neg hqa]
          omega
      omega

theorem sweepL0_inl {K : Type} [LinearOrder K] {ub ue : Option K} :
    ∀ {files : List (FileMeta K)} {ub' ue' : Option K},
      sweepL0 ub ue files = Sum.inl (ub', ue') →
      ∃ f, f ∈ files ∧ overlapsRange ub ue f ∧
        ((extendsLow ub f ∧ ub' = some f.smallest.uk ∧ ue' = ue) ∨
         (¬ extendsLow ub f ∧ extendsHigh ue f ∧ ub' = ub ∧
           ue' = some f.largest.uk)) := by
  intro files
  induction files with
  | nil => intro ub' ue' h; simp [sweepL0] at h
  | cons f rest ih =>
    intro ub' ue' h
    rw [sweepL0] at h
    by_cases hskip : beforeRange ub f ∨ afterRange ue f
    · rw [if_pos hskip] at h
      obtain ⟨g, hg, hov, hcase⟩ := ih h
      exact ⟨g, List.mem_cons_of_mem f hg, hov, hcase⟩
    · rw [if_neg hskip] at h
      have hov : overlapsRange ub ue f :=
        ⟨fun hb => hskip (Or.inl hb), fun ha => hskip (Or.inr ha)⟩
      by_cases hlow : extendsLow ub f
      · rw [if_pos hlow] at h
        simp only [Sum.inl.injEq, Prod.mk.injEq] at h
        exact ⟨f, List.mem_cons_self f rest, hov,
          Or.inl ⟨hlow, h.1.symm, h.2.symm⟩⟩
      · rw [if_neg hlow] at h
        by_cases hhigh : extendsHigh ue f
        · rw [if_pos hhigh] at h
          simp only [Sum.inl.injEq, Prod.mk.injEq] at h
          exact ⟨f, List.mem_cons_self f rest, hov,
            Or.inr ⟨hlow, hhigh, h.1.symm, h.2.symm⟩⟩
        · rw [if_neg hhigh] at h
          cases hrec : sweepL0 ub ue rest with
          | inl p =>
            rw [hrec] at h
            simp only [Sum.inl.injEq] at h
            subst h
            obtain ⟨g, hg, hov', hcase⟩ := ih hrec
            exact ⟨g, List.mem_cons_of_mem f hg, hov', hcase⟩
          | inr out =>
            rw [hrec] at h
            simp at h

theorem sweepL0_inr {K : Type} [LinearOrder K] {ub ue : Option K} :
    ∀ {files : List (FileMeta K)} {out : List (FileMeta K)},
      sweepL0 ub ue files = Sum.inr out →
      out = files.filter (fun f => decide (overlapsRange ub ue f)) ∧
      ∀ f ∈ files, overlapsRange ub ue f →
        ¬ extendsLow ub f ∧ ¬ extendsHigh ue f := by
  intro files
  induction files with
  | nil =>
    intro out h
    simp only [sweepL0, Sum.inr.injEq] at h
    subst h
    exact ⟨rfl, fun f hf => absurd hf (List.not_mem_nil f)⟩
  | cons f rest ih =>
    intro out h
    rw [sweepL0] at h
    by_cases hskip : beforeRange ub f ∨ afterRange ue f
    · rw [if_pos hskip] at h
      obtain ⟨hout, hcl⟩ := ih h
      have hnov : ¬ overlapsRange ub ue f := by
        rintro ⟨hnb, hna⟩
        rcases hskip with hb | ha
        · exact hnb hb
        · exact hna ha
      constructor
      · rw [hout, List.filter_cons_of_neg (by simpa using hnov)]
      · intro g hg hov
        rcases List.mem_cons.mp hg with rfl | hg'
        · exact absurd hov hnov
        · exact hcl g hg' hov
    · rw [if_neg hskip] at h
      have hov : overlapsRange ub ue f :=
        ⟨fun hb => hskip (Or.inl hb), fun ha => hskip (Or.inr ha)⟩
      by_cases hlow : extendsLow ub f
      · rw [if_pos hlow] at h; simp at h
      · rw [if_neg hlow] at h
        by_cases hhigh : extendsHigh ue f
        · rw [if_pos hhigh] at h; simp at h
        · rw [if_neg hhigh] at h
          cases hrec : sweepL0 ub ue rest with
          | inl p => rw [hrec] at h; simp at h
          | inr out' =>
            rw [hrec] at h
            simp only [Sum.inr.injEq] at h
            subst h
            obtain ⟨hout, hcl⟩ := ih hrec
            constructor
            · rw [hout, List.filter_cons_of_pos (by simpa using hov)]
            · intro g hg hov'
              rcases List.mem_cons.mp hg with rfl | hg'
              · exact ⟨hlow, hhigh⟩
              · exact hcl g hg' hov'

theorem sweepL0_measure {K : Type} [LinearOrder K] {ub ue ub' ue' : Option K}
    {files : List (FileMeta K)}
    (h : sweepL0 ub ue files = Sum.inl (ub', ue')) :
    lowCount files ub' + highCount files ue' <
      lowCount files ub + highCount files ue := by
  obtain ⟨f, hf, hov, hcase⟩ := sweepL0_inl h
  rcases hcase with ⟨hlow, rfl, rfl⟩ | ⟨hnlow, hhigh, rfl, rfl⟩
  · obtain ⟨b, hub, hfb⟩ := hlow
    have hsub : ∀ x ∈ files, decide (extendsLow (some f.smallest.uk) x) = true →
        decide (extendsLow ub x) = true := by
      intro x _ hq
      rw [decide_eq_true_eq] at hq ⊢
      obtain ⟨b', hb', hltx⟩ := hq
      cases hb'
      exact ⟨b, hub, lt_trans hltx hfb⟩
    have hp : decide (extendsLow ub f) = true :=
      decide_eq_true_eq.mpr ⟨b, hub, hfb⟩
    have hq : decide (extendsLow (some f.smallest.uk) f) = false := by
      rw [decide_eq_false_iff_not]
      rintro ⟨b', hb', hltx⟩
      cases hb'
      exact lt_irrefl _ hltx
    have hmain : lowCount files (some f.smallest.uk) < lowCount files ub :=
      countP_lt_of_mem files hsub f hf hp hq
    unfold lowCount highCount at *
    omega
  · obtain ⟨e, hue, hfe⟩ := hhigh
    have hsub : ∀ x ∈ files, decide (extendsHigh (some f.largest.uk) x) = true →
        decide (extendsHigh ue x) = true := by
      intro x _ hq
      rw [decide_eq_true_eq] at hq ⊢
      obtain ⟨e', he', hltx⟩ := hq
      cases he'
      exact ⟨e, hue, lt_trans hfe hltx⟩
    have hp : decide (extendsHigh ue f) = true :=
      decide_eq_true_eq.mpr ⟨e, hue, hfe⟩
    have hq : decide (extendsHigh (some f.largest.uk) f) = false := by
      rw [decide_eq_false_iff_not]
      rintro ⟨e', he', hltx⟩
      cases he'
      exact lt_irrefl _ hltx
    have hmain : highCount files (some f.largest.uk) < highCount files ue :=
      countP_lt_of_mem files hsub f hf hp hq
    unfold lowCount highCount at *
    omega

theorem lowWider_trans {K : Type} [LinearOrder K] {a b c : Option K}
    (h1 : lowWider a b) (h2 : lowWider b c) : lowWider a c := by
  rcases h1 with rfl | ⟨x, y, hx, hy, hxy⟩
  · exact h2
  · rcases h2 with rfl | ⟨x', y', hx', hy', hxy'⟩
    · exact Or.inr ⟨x, y, hx, hy, hxy⟩
    · rw [hy] at hx'
      cases hx'
      exact Or.inr ⟨x, y', hx, hy', lt_trans hxy' hxy⟩

theorem highWider_trans {K : Type} [LinearOrder K] {a b c : Option K}
    (h1 : highWider a b) (h2 : highWider b c) : highWider a c := by
  rcases h1 with rfl | ⟨x, y, hx, hy, hxy⟩
  · exact h2
  · rcases h2 with rfl | ⟨x', y', hx', hy', hxy'⟩
    · exact Or.inr ⟨x, y, hx, hy, hxy⟩
    · rw [hy] at hx'
      cases hx'
      exact Or.inr ⟨x, y', hx, hy', lt_trans hxy hxy'⟩

theorem gOIL0Fuel_spec {K : Type} [LinearOrder K] (files : List (FileMeta K)) :
    ∀ (fuel : Nat) (ub ue : Option K),
      lowCount files ub + highCount files ue < fuel →
      lowWider ub (gOIL0Fuel files fuel ub ue).1 ∧
      highWider ue (gOIL0Fuel files fuel ub ue).2.1 ∧
      (gOIL0Fuel files fuel ub ue).2.2 =
        files.filter (fun f => decide (overlapsRange (gOIL0Fuel files fuel ub ue).1
          (gOIL0Fuel files fuel ub ue).2.1 f)) ∧
      ∀ f ∈ files,
        overlapsRange (gOIL0Fuel files fuel ub ue).1
          (gOIL0Fuel files fuel ub ue).2.1 f →
        ¬ extendsLow (gOIL0Fuel files fuel ub ue).1 f ∧
        ¬ extendsHigh (gOIL0Fuel files fuel ub ue).2.1 f := by
  intro fuel
  induction fuel with
  | zero => intro ub ue hcount; omega
  | succ fuel ih =>
    intro ub ue hcount
    cases hs : sweepL0 ub ue files with
    | inr out =>
      obtain ⟨hout, hcl⟩ := sweepL0_inr hs
      have hres : gOIL0Fuel files (fuel + 1) ub ue = (ub, ue, out) := by
        rw [gOIL0Fuel, hs]
      rw [hres]
      exact ⟨Or.inl rfl, Or.inl rfl, hout, hcl⟩
    | inl p =>
      obtain ⟨ub2, ue2⟩ := p
      have hres : gOIL0Fuel files (fuel + 1) ub ue = gOIL0Fuel files fuel ub2 ue2 := by
        rw [gOIL0Fuel, hs]
      have hmeas := sweepL0_measure hs
      obtain ⟨hw1, hw2, hout, hcl⟩ := ih ub2 ue2 (by omega)
      have hstep : lowWider ub ub2 ∧ highWider ue ue2 := by
        obtain ⟨f, _, _, hcase⟩ := sweepL0_inl hs
        rcases hcase with ⟨⟨b, hub, hfb⟩, rfl, rfl⟩ | ⟨_, ⟨e, hue, hfe⟩, rfl, rfl⟩
        · exact ⟨Or.inr ⟨b, f.smallest.uk, hub, rfl, hfb⟩, Or.inl rfl⟩
        · exact ⟨Or.inl rfl, Or.inr ⟨e, f.largest.uk, hue, rfl, hfe⟩⟩
      rw [hres]
      exact ⟨lowWider_trans hstep.1 hw1, highWider_trans hstep.2 hw2, hout, hcl⟩

/-- C5: for level 0, `GetOverlappingInputs` terminates (its restart loop is
bounded by `2·n + 1` sweeps, each of at most `n` steps) and returns exactly
the files overlapping the transitive closure of the query's user-key range:
the final bounds only widen the query bounds, the output equals the files
overlapping the final bounds, and no output file extends those bounds — the
output is closed under overlap with the expanded range. -/
theorem claim_c5 {K : Type} [LinearOrder K] (files : List (FileMeta K))
    (ub ue : Option K) :
    getOverlappingInputs 0 files ub ue = (getOverlappingL0 files ub ue).2.2 ∧
    lowWider ub (getOverlappingL0 files ub ue).1 ∧
    highWider ue (getOverlappingL0 files ub ue).2.1 ∧
    (getOverlappingL0 files ub ue).2.2 =
      files.filter (fun f => decide (overlapsRange (getOverlappingL0 files ub ue).1
        (getOverlappingL0 files ub ue).2.1 f)) ∧
    ∀ f ∈ files,
      overlapsRange (getOverlappingL0 files ub ue).1
        (getOverlappingL0 files ub ue).2.1 f →
      ¬ extendsLow (getOverlappingL0 files ub ue).1 f ∧
      ¬ extendsHigh (getOverlappingL0 files ub ue).2.1 f := by
  have hfuel : lowCount files ub + highCount files ue < 2 * files.length + 1 := by
    have h1 : lowCount files ub ≤ files.length := List.countP_le_length _
    have h2 : highCount files ue ≤ files.length := List.countP_le_length _
    omega
  obtain ⟨hw1, hw2, hout, hcl⟩ := gOIL0Fuel_spec files (2 * files.length + 1) ub ue hfuel
  exact ⟨by rw [getOverlappingInputs, if_pos rfl], hw1, hw2, hout, hcl⟩

/-! ## Builder non-overlap invariant (C2) -/

theorem adjacentDisjoint_adj {K : Type} [LinearOrder K] :
    ∀ (files : List (FileMeta K)), adjacentDisjoint files →
      ∀ (i : Nat) (fi fj : FileMeta K), files[i]? = some fi →
        files[i + 1]? = some fj → ikLt fi.largest fj.smallest := by
  intro files
  induction files with
  | nil => intro _ i fi fj hfi; simp at hfi
  | cons f rest ih =>
    intro h i fi fj hfi hfj
    cases i with
    | zero =>
      simp only [List.getElem?_cons_zero, Option.some.injEq] at hfi
      subst hfi
      simp only [List.getElem?_cons_succ] at hfj
      cases rest with
      | nil => simp at hfj
      | cons g rest' =>
        simp only [List.getElem?_cons_zero, Option.some.injEq] at hfj
        subst hfj
        exact h.1
    | succ i' =>
      simp only [List.getElem?_cons_succ] at hfi hfj
      cases rest with
      | nil => simp at hfi
      | cons g rest' => exact ih h.2 i' fi fj hfi hfj

/-- C2: every version built by `Builder::SaveTo` whose level list passes the
builder's own non-overlap assertions (each file's largest key strictly before
its successor's smallest — the check in `SaveTo`/`MaybeAddFile`, which defines
a valid edit sequence) and whose files are well-formed (`smallest ≤ largest`,
the `FileMetaData` invariant) satisfies the full ordering invariant: for all
`i < j` at the level, `files[i].largest < files[j].smallest` under the
internal key comparator. -/
theorem claim_c2 {K : Type} [LinearOrder K] (bst : BuilderState K) (level : Nat)
    (hlevel : 1 ≤ level)
    (hwf : ∀ f ∈ (saveTo bst).getD level [], ikLe f.smallest f.largest)
    (hadj : adjacentDisjoint ((saveTo bst).getD level [])) :
    ∀ (i j : Nat) (fi fj : FileMeta K), i < j →
      ((saveTo bst).getD level [])[i]? = some fi →
      ((saveTo bst).getD level [])[j]? = some fj →
      ikLt fi.largest fj.smallest := by
  have main : ∀ (j i : Nat) (fi fj : FileMeta K), i < j →
      ((saveTo bst).getD level [])[i]? = some fi →
      ((saveTo bst).getD level [])[j]? = some fj →
      ikLt fi.largest fj.smallest := by
    intro j
    induction j with
    | zero => intro i fi fj hij; omega
    | succ j' ih =>
      intro i fi fj hij hfi hfj
      rcases Nat.lt_or_ge i j' with hlt | hge
      · obtain ⟨hjlen, _⟩ := List.getElem?_eq_some.mp hfj
        have hjlen' : j' < ((saveTo bst).getD level []).length := by omega
        have hmid : ((saveTo bst).getD level [])[j']? =
            some (((saveTo bst).getD level []).get ⟨j', hjlen'⟩) :=
          List.getElem?_eq_some.mpr ⟨hjlen', rfl⟩
        have h1 := ih i fi _ hlt hfi hmid
        have h2 := adjacentDisjoint_adj _ hadj j' _ fj hmid hfj
        have hwfk := hwf _ (List.getElem?_mem hmid)
        exact ikLt_trans (ikLt_le_trans h1 hwfk) h2
      · have : i = j' := by omega
        subst this
        exact adjacentDisjoint_adj _ hadj i fi fj hfi hfj
  exact fun i j fi fj hij hfi hfj => main j i fi fj hij hfi hfj

/-- Witness for C2 on a concrete builder producing two disjoint level-1
files. -/
theorem claim_c2_witness :
    adjacentDisjoint ((saveTo sBuilder).getD 1 []) ∧
    ikLt sSavedA.largest sSavedB.smallest :=
  ⟨by decide,
    claim_c2 sBuilder 1 (le_refl 1) (by decide) (by decide) 0 1 sSavedA sSavedB
      Nat.zero_lt_one (by decide) (by decide)⟩

/-! ## Seek budget of added files (C8) -/

theorem getD_replicate {A : Type} (d : A) :
    ∀ (n j : Nat), (List.replicate n d).getD j d = d := by
  intro n
  induction n with
  | zero => intro j; rfl
  | succ n ih =>
    intro j
    cases j with
    | zero => rfl
    | succ j => exact ih j

theorem getD_padTo {A : Type} (d : A) :
    ∀ (l : List A) (n j : Nat), (padTo l n d).getD j d = l.getD j d := by
  intro l
  induction l with
  | nil =>
    intro n j
    show (([] : List A) ++ List.replicate (n - 0) d).getD j d = ([] : List A).getD j d
    rw [List.nil_append]
    rw [getD_replicate d (n - 0) j]
    cases j <;> rfl
  | cons a l ih =>
    intro n j
    show ((a :: l) ++ List.replicate (n - (a :: l).length) d).getD j d =
      (a :: l).getD j d
    cases j with
    | zero => rfl
    | succ j =>
      rw [List.cons_append, List.getD_cons_succ, List.getD_cons_succ]
      have harg : n - (a :: l).length = (n - 1) - l.length := by
        simp only [List.length_cons]
        omega
      rw [harg]
      exact ih (n - 1) j

theorem getD_modifyAt {A : Type} (g : A → A) :
    ∀ (l : List A) (i j : Nat) (d : A),
      (modifyAt g l i).getD j d =
        if j = i ∧ j < l.length then g (l.getD j d) else l.getD j d := by
  intro l
  induction l with
  | nil =>
    intro i j d
    simp [modifyAt]
  | cons a rest ih =>
    intro i j d
    cases i with
    | zero =>
      cases j with
      | zero => simp [modifyAt]
      | succ j => simp [modifyAt]
    | succ i =>
      cases j with
      | zero => simp [modifyAt]
      | succ j =>
        show (modifyAt g rest i).getD j d = _
        rw [ih i j d]
        by_cases hc : j = i ∧ j < rest.length
        · rw [if_pos hc, if_pos (by simp only [List.length_cons]; omega)]
          rfl
        · rw [if_neg hc, if_neg (by simp only [List.length_cons]; omega)]
          rfl

theorem mem_insertBySmallest {K : Type} [LinearOrder K] (f : FileMeta K) :
    ∀ (l : List (FileMeta K)) (g : FileMeta K),
      g ∈ insertBySmallest f l → g = f ∨ g ∈ l := by
  intro l
  induction l with
  | nil =>
    intro g hg
    rcases List.mem_cons.mp hg with rfl | hg'
    · exact Or.inl rfl
    · cases hg'
  | cons a rest ih =>
    intro g hg
    rw [insertBySmallest] at hg
    by_cases h1 : bySmallest f a
    · rw [if_pos h1] at hg
      rcases List.mem_cons.mp hg with rfl | hg'
      · exact Or.inl rfl
      · exact Or.inr hg'
    · rw [if_neg h1] at hg
      by_cases h2 : bySmallest a f
      · rw [if_pos h2] at hg
        rcases List.mem_cons.mp hg with rfl | hg'
        · exact Or.inr (List.mem_cons_self _ _)
        · rcases ih g hg' with h | h
          · exact Or.inl h
          · exact Or.inr (List.mem_cons_of_mem a h)
      · rw [if_neg h2] at hg
        exact Or.inr hg

theorem getD_foldl_modify_added {K : Type} {P : Type} (sel : P → Nat)
    (gf : P → BuilderLevel K → BuilderLevel K)
    (hg : ∀ p ls, (gf p ls).addedFiles = ls.addedFiles) :
    ∀ (ps : List P) (levels : List (BuilderLevel K)) (lvl : Nat),
      ((ps.foldl (fun levels p => modifyAt (gf p) levels (sel p)) levels).getD
        lvl emptyBuilderLevel).addedFiles =
      ((levels.getD lvl emptyBuilderLevel)).addedFiles := by
  intro ps
  induction ps with
  | nil => intro levels lvl; rfl
  | cons p ps ih =>
    intro levels lvl
    show ((ps.foldl _ (modifyAt (gf p) levels (sel p))).getD
      lvl emptyBuilderLevel).addedFiles = _
    rw [ih (modifyAt (gf p) levels (sel p)) lvl]
    rw [getD_modifyAt]
    by_cases hc : lvl = sel p ∧ lvl < levels.length
    · rw [if_pos hc, hg]
    · rw [if_neg hc]

theorem mem_added_foldNew {K : Type} [LinearOrder K] :
    ∀ (nfs : List (Nat × FileMeta K)) (levels : List (BuilderLevel K))
      (lvl : Nat) (g : FileMeta K),
      g ∈ ((nfs.foldl
        (fun levels p =>
          let f := { p.2 with allowedSeeks := initAllowedSeeks p.2.fileSize }
          modifyAt (fun ls =>
              { ls with
                deletedFiles := ls.deletedFiles.filter (fun n => n ≠ f.number),
                addedFiles := insertBySmallest f ls.addedFiles })
            levels p.1)
        levels).getD lvl emptyBuilderLevel).addedFiles →
      g ∈ ((levels.getD lvl emptyBuilderLevel)).addedFiles ∨
      g.allowedSeeks = initAllowedSeeks g.fileSize := by
  intro nfs
  induction nfs with
  | nil => intro levels lvl g hg; exact Or.inl hg
  | cons p nfs ih =>
    intro levels lvl g hg
    rcases ih _ lvl g hg with hmem | hprop
    · rw [getD_modifyAt] at hmem
      by_cases hc : lvl = p.1 ∧ lvl < levels.length
      · rw [if_pos hc] at hmem
        simp only at hmem
        rcases mem_insertBySmallest _ _ _ hmem with rfl | hmem'
        · exact Or.inr rfl
        · exact Or.inl hmem'
      · rw [if_neg hc] at hmem
        exact Or.inl hmem
    · exact Or.inr hprop

/-- C8: the seek budget `Builder::Apply` assigns to each file added through a
`VersionEdit` equals `max(100, file_size / 16 KiB)` — every file present in
the builder's added set after an apply either predates the apply or carries
that budget — and a file with `file_size = 16384` gets `allowed_seeks = 100`. -/
theorem claim_c8 {K : Type} [LinearOrder K] :
    (∀ fileSize : Nat, initAllowedSeeks fileSize = max 100 (fileSize / 16384)) ∧
    (∀ (opts : DBOptions) (cp : List (Option (InternalKey K)))
       (bst : BuilderState K) (edit : VersionEdit K) (lvl : Nat) (g : FileMeta K),
       g ∈ (((applyEdit opts cp bst edit).2.levels.getD lvl
         emptyBuilderLevel)).addedFiles →
       g ∈ ((bst.levels.getD lvl emptyBuilderLevel)).addedFiles ∨
       g.allowedSeeks = max 100 (g.fileSize / 16384)) ∧
    initAllowedSeeks 16384 = 100 := by
  have hinit : ∀ fileSize : Nat, initAllowedSeeks fileSize = max 100 (fileSize / 16384) := by
    intro s
    unfold initAllowedSeeks
    simp only
    split <;> omega
  refine ⟨hinit, ?_, rfl⟩
  intro opts cp bst edit lvl g hg
  unfold applyEdit at hg
  simp only at hg
  rw [getD_foldl_modify_added Prod.fst
    (fun p ls => { ls with updatedFiles := insertNumber p.2 ls.updatedFiles })
    (fun _ _ => rfl) edit.updatedFiles] at hg
  rcases mem_added_foldNew edit.newFiles _ lvl g hg with hmem | hprop
  · rw [getD_foldl_modify_added Prod.fst
      (fun p ls => { ls with deletedFiles := insertNumber p.2 ls.deletedFiles })
      (fun _ _ => rfl) edit.deletedFiles] at hmem
    by_cases hsub : opts.enableSublevel
    · rw [if_pos hsub] at hmem
      exact Or.inl hmem
    · rw [if_neg hsub] at hmem
      rw [getD_padTo] at hmem
      exact Or.inl hmem
  · rw [hinit] at hprop
    exact Or.inr hprop

/-- Witness for C8: the 20-byte file added through `sEdit` carries the
`max(100, size/16KiB) = 100` budget. -/
theorem claim_c8_witness :
    initAllowedSeeks 16384 = 100 ∧
    (sSavedB ∈ (((builderInit sBase : BuilderState Nat).levels.getD 1
        emptyBuilderLevel)).addedFiles ∨
      sSavedB.allowedSeeks = max 100 (sSavedB.fileSize / 16384)) :=
  ⟨(@claim_c8 Nat _).2.2,
    (@claim_c8 Nat _).2.1 sOpts [] (builderInit sBase) sEdit 1 sSavedB (by decide)⟩

/-! ## Recovery counter requirements (C3) -/

theorem recoverScan_ok {K : Type} (cmp : String) :
    ∀ (edits : List (VersionEdit K)) (fl : RecFlags) (ct : RecCounters),
      (∀ e ∈ edits, e.comparatorName = none ∨ e.comparatorName = some cmp) →
      (recoverScan cmp .ok fl ct edits).1 = .ok ∧
      (recoverScan cmp .ok fl ct edits).2.1.haveNextFile =
        (fl.haveNextFile || edits.any (fun e => e.nextFileNumber.isSome)) ∧
      (recoverScan cmp .ok fl ct edits).2.1.haveLogNumber =
        (fl.haveLogNumber || edits.any (fun e => e.logNumber.isSome)) ∧
      (recoverScan cmp .ok fl ct edits).2.1.haveLastSequence =
        (fl.haveLastSequence || edits.any (fun e => e.lastSequence.isSome)) ∧
      (recoverScan cmp .ok fl ct edits).2.1.havePrevLogNumber =
        (fl.havePrevLogNumber || edits.any (fun e => e.prevLogNumber.isSome)) := by
  intro edits
  induction edits with
  | nil =>
    intro fl ct _
    refine ⟨rfl, ?_, ?_, ?_, ?_⟩ <;> simp [recoverScan]
  | cons e rest ih =>
    intro fl ct hcmp
    have hstep : recoverScan cmp .ok fl ct (e :: rest) =
        recoverScan cmp .ok
          { fl with
            haveLogNumber := fl.haveLogNumber || e.logNumber.isSome,
            havePrevLogNumber := fl.havePrevLogNumber || e.prevLogNumber.isSome,
            haveNextFile := fl.haveNextFile || e.nextFileNumber.isSome,
            haveLastSequence := fl.haveLastSequence || e.lastSequence.isSome }
          { ct with
            logNumber := e.logNumber.getD ct.logNumber,
            prevLogNumber := e.prevLogNumber.getD ct.prevLogNumber,
            nextFile := e.nextFileNumber.getD ct.nextFile,
            lastSeq := e.lastSequence.getD ct.lastSeq }
          rest := by
      rcases hcmp e (List.mem_cons_self e rest) with hnone | hsome
      · simp [recoverScan, hnone, Status.isOk]
      · simp [recoverScan, hsome, Status.isOk]
    rw [hstep]
    obtain ⟨h1, h2, h3, h4, h5⟩ :=
      ih _ _ (fun e' he' => hcmp e' (List.mem_cons_of_mem e he'))
    refine ⟨h1, ?_, ?_, ?_, ?_⟩ <;>
      simp only [h2, h3, h4, h5, List.any_cons, Bool.or_assoc]

/-- C3 counterexample: a MANIFEST candidate that decodes cleanly and supplies
`log_number`, `next_file_number` and `last_sequence` but never
`prev_log_number` is accepted with `prev_log_number` defaulted to `0` — it is
not rejected with `Corruption` as the claim requires for a candidate missing
any of the four counters. -/
theorem claim_c3_counterexample :
    sC3Missing.all (fun e => e.prevLogNumber.isNone) = true ∧
    recoverCandidate "leveldb.BytewiseComparator" sC3Missing =
      Except.ok ⟨3, 50, 2, 0⟩ := by
  exact ⟨rfl, rfl⟩

/-- C3 (amended): a cleanly decoding MANIFEST candidate is accepted iff the
folded edits supplied `next_file_number`, `log_number` and `last_sequence`;
missing any of those three yields a `Corruption` rejection, while a missing
`prev_log_number` is tolerated and defaults to `0`. -/
theorem claim_c3_amended {K : Type} (cmp : String) (edits : List (VersionEdit K))
    (hcmp : ∀ e ∈ edits, e.comparatorName = none ∨ e.comparatorName = some cmp) :
    ((∃ ct, recoverCandidate cmp edits = .ok ct) ↔
      (edits.any (fun e => e.nextFileNumber.isSome) = true ∧
       edits.any (fun e => e.logNumber.isSome) = true ∧
       edits.any (fun e => e.lastSequence.isSome) = true)) ∧
    ((edits.any (fun e => e.nextFileNumber.isSome) = false ∨
      edits.any (fun e => e.logNumber.isSome) = false ∨
      edits.any (fun e => e.lastSequence.isSome) = false) →
      ∃ msg, recoverCandidate cmp edits = Except.error (.corruption msg)) ∧
    (edits.any (fun e => e.prevLogNumber.isSome) = false →
      ∀ ct, recoverCandidate cmp edits = .ok ct → ct.prevLogNumber = 0) := by
  obtain ⟨h1, h2, h3, h4, h5⟩ :=
    recoverScan_ok cmp edits ⟨false, false, false, false⟩ ⟨0, 0, 0, 0⟩ hcmp
  simp only [Bool.false_or] at h2 h3 h4 h5
  unfold recoverCandidate recoverCheck
  rw [h1]
  simp only [Status.isOk]
  rw [h2, h3, h4, h5]
  constructor
  · constructor
    · rintro ⟨ct, hct⟩
      by_cases ha : edits.any (fun e => e.nextFileNumber.isSome) = true
      · by_cases hb : edits.any (fun e => e.logNumber.isSome) = true
        · by_cases hc : edits.any (fun e => e.lastSequence.isSome) = true
          · exact ⟨ha, hb, hc⟩
          · rw [if_neg (by simp), if_neg (by simp [ha]), if_neg (by simp [hb]),
              if_pos (by simp [hc])] at hct
            cases hct
        · rw [if_neg (by simp), if_neg (by simp [ha]), if_pos (by simp [hb])] at hct
          cases hct
      · rw [if_neg (by simp), if_pos (by simp [ha])] at hct
        cases hct
    · rintro ⟨ha, hb, hc⟩
      rw [if_neg (by simp), if_neg (by simp [ha]), if_neg (by simp [hb]),
        if_neg (by simp [hc])]
      exact ⟨_, rfl⟩
  constructor
  · intro hmiss
    rw [if_neg (by simp)]
    by_cases ha : edits.any (fun e => e.nextFileNumber.isSome) = true
    · by_cases hb : edits.any (fun e => e.logNumber.isSome) = true
      · have hc : edits.any (fun e => e.lastSequence.isSome) = false := by
          rcases hmiss with h | h | h
          · rw [ha] at h; cases h
          · rw [hb] at h; cases h
          · exact h
        rw [if_neg (by simp [ha]), if_neg (by simp [hb]), if_pos (by simp [hc])]
        exact ⟨_, rfl⟩
      · rw [if_neg (by simp [ha]), if_pos (by simp [hb])]
        exact ⟨_, rfl⟩
    · rw [if_pos (by simp [ha])]
      exact ⟨_, rfl⟩
  · intro hprev ct hct
    by_cases ha : edits.any (fun e => e.nextFileNumber.isSome) = true
    · by_cases hb : edits.any (fun e => e.logNumber.isSome) = true
      · by_cases hc : edits.any (fun e => e.lastSequence.isSome) = true
        · rw [if_neg (by simp), if_neg (by simp [ha]), if_neg (by simp [hb]),
            if_neg (by simp [hc])] at hct
          simp only [Except.ok.injEq] at hct
          subst hct
          rw [hprev]
          rfl
        · rw [if_neg (by simp), if_neg (by simp [ha]), if_neg (by simp [hb]),
            if_pos (by simp [hc])] at hct
          cases hct
      · rw [if_neg (by simp), if_neg (by simp [ha]), if_pos (by simp [hb])] at hct
        cases hct
    · rw [if_neg (by simp), if_pos (by simp [ha])] at hct
      cases hct

/-- Witness for the amended C3 on a candidate supplying all four counters. -/
theorem claim_c3_witness :
    (∃ ct, recoverCandidate "pdlfs" sC3Full = .ok ct) ↔
      (sC3Full.any (fun e => e.nextFileNumber.isSome) = true ∧
       sC3Full.any (fun e => e.logNumber.isSome) = true ∧
       sC3Full.any (fun e => e.lastSequence.isSome) = true) :=
  (claim_c3_amended "pdlfs" sC3Full (by decide)).1

/-! ## `PickCompaction` priority and seeding (C4) -/

theorem find?_some_spec {A : Type} {p : A → Bool} :
    ∀ (l : List A) (x : A), l.find? p = some x →
      ∃ (i : Nat) (hi : i < l.length), x = l.get ⟨i, hi⟩ ∧ p x = true ∧
        ∀ (j : Nat) (hj : j < l.length), j < i → p (l.get ⟨j, hj⟩) = false := by
  intro l
  induction l with
  | nil => intro x h; simp at h
  | cons a rest ih =>
    intro x h
    by_cases hpa : p a = true
    · rw [List.find?_cons_of_pos _ hpa, Option.some.injEq] at h
      subst h
      exact ⟨0, Nat.succ_pos _, rfl, hpa, fun j hj hlt => absurd hlt (Nat.not_lt_zero j)⟩
    · rw [List.find?_cons_of_neg _ (by simpa using hpa)] at h
      obtain ⟨i, hi, hx, hpx, hearlier⟩ := ih x h
      refine ⟨i + 1, by simpa using Nat.succ_lt_succ hi, hx, hpx, ?_⟩
      intro j hj hlt
      cases j with
      | zero => simpa using hpa
      | succ j =>
        exact hearlier j (by simpa using Nat.lt_of_succ_lt_succ hj)
          (Nat.lt_of_succ_lt_succ hlt)

theorem setupOtherInputs_level {K : Type} [LinearOrder K] (opts : DBOptions)
    (v : Version K) (cp : List (Option (InternalKey K))) (level : Nat)
    (inputs0 : List (FileMeta K)) :
    (setupOtherInputs opts v cp level inputs0).1.level = level := by
  unfold setupOtherInputs
  cases hr : getRange inputs0 with
  | none => rfl
  | some r => rfl

theorem pickPlanFromSeed_level {K : Type} [LinearOrder K] (opts : DBOptions)
    (st : PlannerState K) (level : Nat) (inputs0 : List (FileMeta K)) :
    (pickPlanFromSeed opts st level inputs0).1.level = level := by
  unfold pickPlanFromSeed
  exact setupOtherInputs_level _ _ _ _ _

theorem cptrPasses_bool {K : Type} [LinearOrder K]
    (cptr : Option (InternalKey K)) (f : FileMeta K) :
    ((match cptr with
      | none => true
      | some c => decide (ikLt c f.largest)) = true) ↔ cptrPasses cptr f := by
  cases cptr with
  | none => simp [cptrPasses]
  | some c =>
    simp only [decide_eq_true_eq, cptrPasses]
    constructor
    · intro h; exact Or.inr ⟨c, rfl, h⟩
    · rintro (h | ⟨ck, hck, h⟩)
      · cases h
      · cases hck; exact h

theorem pickSizeSeedFiles_spec {K : Type} [LinearOrder K]
    (files : List (FileMeta K)) (cptr : Option (InternalKey K))
    (hne : files ≠ []) :
    (∃ (i : Nat) (hi : i < files.length), cptrPasses cptr (files.get ⟨i, hi⟩) ∧
      (∀ (j : Nat) (hj : j < files.length), j < i →
        ¬ cptrPasses cptr (files.get ⟨j, hj⟩)) ∧
      pickSizeSeedFiles files cptr = [files.get ⟨i, hi⟩]) ∨
    ((∀ f ∈ files, ¬ cptrPasses cptr f) ∧
      ∃ (h0 : 0 < files.length), pickSizeSeedFiles files cptr =
        [files.get ⟨0, h0⟩]) := by
  cases hfind : files.find? (fun f =>
      match cptr with
      | none => true
      | some c => decide (ikLt c f.largest)) with
  | some x =>
    obtain ⟨i, hi, hx, hpx, hearlier⟩ := find?_some_spec files x hfind
    subst hx
    refine Or.inl ⟨i, hi, (cptrPasses_bool cptr _).mp hpx, ?_, ?_⟩
    · intro j hj hlt hpass
      have hfalse := hearlier j hj hlt
      have htrue := (cptrPasses_bool cptr (files.get ⟨j, hj⟩)).mpr hpass
      rw [hfalse] at htrue
      cases htrue
    · rw [pickSizeSeedFiles, hfind]
  | none =>
    have hall := List.find?_eq_none.mp hfind
    refine Or.inr ⟨?_, ?_⟩
    · intro f hf hpass
      exact hall f hf ((cptrPasses_bool cptr f).mpr hpass)
    · cases files with
      | nil => exact absurd rfl hne
      | cons f rest =>
        exact ⟨Nat.succ_pos _, by rw [pickSizeSeedFiles, hfind]; rfl⟩

/-- C4: `PickCompaction` follows exactly the claimed priority.  If the current
version's compaction score is at least 1 it builds the plan size-triggered at
`compaction_level`, seeding with the first file whose largest key lies
strictly after the level's compaction pointer and wrapping to the level's
first file when none qualifies; otherwise, if seek compaction is allowed and a
seek candidate exists, it builds the plan from that file at its recorded
level; otherwise it returns no plan. -/
theorem claim_c4 {K : Type} [LinearOrder K] (opts : DBOptions)
    (st : PlannerState K) (allowSeek : Bool)
    (hsub : opts.enableSublevel = false) :
    (1 ≤ st.v.compactionScore →
      pickCompaction opts st allowSeek =
        (some (pickPlanFromSeed opts st st.v.compactionLevel.toNat
          (pickSizeSeedFiles (st.v.files.getD st.v.compactionLevel.toNat [])
            (st.compactPointer.getD st.v.compactionLevel.toNat none))).1,
         (pickPlanFromSeed opts st st.v.compactionLevel.toNat
          (pickSizeSeedFiles (st.v.files.getD st.v.compactionLevel.toNat [])
            (st.compactPointer.getD st.v.compactionLevel.toNat none))).2) ∧
      ∀ c st', pickCompaction opts st allowSeek = (some c, st') →
        c.level = st.v.compactionLevel.toNat) ∧
    (st.v.compactionScore < 1 → allowSeek = true →
      ∀ f : FileMeta K, st.v.fileToCompact = some f →
      pickCompaction opts st allowSeek =
        (some (pickPlanFromSeed opts st st.v.fileToCompactLevel.toNat [f]).1,
         (pickPlanFromSeed opts st st.v.fileToCompactLevel.toNat [f]).2) ∧
      ∀ c st', pickCompaction opts st allowSeek = (some c, st') →
        c.level = st.v.fileToCompactLevel.toNat) ∧
    (st.v.compactionScore < 1 → (allowSeek = false ∨ st.v.fileToCompact = none) →
      pickCompaction opts st allowSeek = (none, st)) ∧
    (∀ (files : List (FileMeta K)) (cptr : Option (InternalKey K)), files ≠ [] →
      (∃ (i : Nat) (hi : i < files.length), cptrPasses cptr (files.get ⟨i, hi⟩) ∧
        (∀ (j : Nat) (hj : j < files.length), j < i →
          ¬ cptrPasses cptr (files.get ⟨j, hj⟩)) ∧
        pickSizeSeedFiles files cptr = [files.get ⟨i, hi⟩]) ∨
      ((∀ f ∈ files, ¬ cptrPasses cptr f) ∧
        ∃ (h0 : 0 < files.length), pickSizeSeedFiles files cptr =
          [files.get ⟨0, h0⟩])) := by
  refine ⟨?_, ?_, ?_, fun files cptr hne => pickSizeSeedFiles_spec files cptr hne⟩
  · intro hscore
    have heq : pickCompaction opts st allowSeek =
        (some (pickPlanFromSeed opts st st.v.compactionLevel.toNat
          (pickSizeSeedFiles (st.v.files.getD st.v.compactionLevel.toNat [])
            (st.compactPointer.getD st.v.compactionLevel.toNat none))).1,
         (pickPlanFromSeed opts st st.v.compactionLevel.toNat
          (pickSizeSeedFiles (st.v.files.getD st.v.compactionLevel.toNat [])
            (st.compactPointer.getD st.v.compactionLevel.toNat none))).2) := by
      unfold pickCompaction
      rw [hsub]
      simp only [Bool.false_eq_true, if_false, if_pos hscore]
    refine ⟨heq, ?_⟩
    intro c st' hpick
    rw [heq] at hpick
    simp only [Prod.mk.injEq, Option.some.injEq] at hpick
    rw [← hpick.1]
    exact pickPlanFromSeed_level _ _ _ _
  · intro hscore hallow f hf
    have heq : pickCompaction opts st allowSeek =
        (some (pickPlanFromSeed opts st st.v.fileToCompactLevel.toNat [f]).1,
         (pickPlanFromSeed opts st st.v.fileToCompactLevel.toNat [f]).2) := by
      unfold pickCompaction
      rw [hsub, hallow, hf]
      simp only [Bool.false_eq_true, if_false, if_neg (not_le.mpr hscore),
        Option.isSome_some, Bool.and_self, if_true, Option.toList_some]
    refine ⟨heq, ?_⟩
    intro c st' hpick
    rw [heq] at hpick
    simp only [Prod.mk.injEq, Option.some.injEq] at hpick
    rw [← hpick.1]
    exact pickPlanFromSeed_level _ _ _ _
  · intro hscore hnoseek
    unfold pickCompaction
    rw [hsub]
    rcases hnoseek with ha | hn
    · rw [ha]
      simp only [Bool.false_eq_true, if_false, if_neg (not_le.mpr hscore),
        Bool.false_and]
    · rw [hn]
      simp only [Bool.false_eq_true, if_false, if_neg (not_le.mpr hscore),
        Option.isSome_none, Bool.and_false]

/-- Witness for C4 on the concrete size-triggered planner state. -/
theorem claim_c4_witness :
    sOpts.enableSublevel = false ∧ (1 : ℚ) ≤ sPlanner.v.compactionScore ∧
    ∀ c st', pickCompaction sOpts sPlanner false = (some c, st') →
      c.level = sPlanner.v.compactionLevel.toNat :=
  ⟨rfl, by decide,
    ((claim_c4 sOpts sPlanner false rfl).1 (by decide)).2⟩

/-! ## `LogAndApply` failure handling (C1) -/

/-- C1: if the MANIFEST record append, or the fsync after it, fails inside
`LogAndApply`, that error is returned, the new version is never installed (the
current version is exactly the one current before the call), the four counters
(`log_number`, `prev_log_number`, `next_file_number`, `last_sequence`) are
unchanged, and when a brand-new MANIFEST file had been created for this call,
both descriptor handles are closed and that file is deleted.  The hypothesis
`hpre` states that the steps before the append succeeded (a descriptor was
already open, or creating one and writing the snapshot succeeded), so the
append actually runs. -/
theorem claim_c1 {K : Type} [LinearOrder K] (opts : DBOptions) (env : ManifestEnv)
    (st : VSState K) (edit : VersionEdit K)
    (hpre : st.descriptorOpen = true ∨
      (env.newFile.isOk = true ∧ env.snapshot.isOk = true))
    (hfail : env.addRecord.isOk = false ∨
      (env.addRecord.isOk = true ∧ env.sync.isOk = false)) :
    (logAndApply opts env st edit).1 =
      (if env.addRecord.isOk then env.sync else env.addRecord) ∧
    ((logAndApply opts env st edit).1).isOk = false ∧
    (logAndApply opts env st edit).2.1.current = st.current ∧
    (logAndApply opts env st edit).2.1.logNumber = st.logNumber ∧
    (logAndApply opts env st edit).2.1.prevLogNumber = st.prevLogNumber ∧
    (logAndApply opts env st edit).2.1.nextFileNumber = st.nextFileNumber ∧
    (logAndApply opts env st edit).2.1.lastSequence = st.lastSequence ∧
    (st.descriptorOpen = false →
      (logAndApply opts env st edit).2.1.descriptorOpen = false ∧
      (logAndApply opts env st edit).2.2 =
        [FsEffect.deleteFile st.manifestFileNumber]) := by
  have hok : Status.ok.isOk = true := rfl
  rcases hpre with hd | ⟨hnf, hsnap⟩
  · rcases hfail with haddr | ⟨haddr, hsync⟩
    · simp [logAndApply, hd, haddr, hok]
    · simp [logAndApply, hd, haddr, hsync, hok]
  · by_cases hd : st.descriptorOpen = true
    · rcases hfail with haddr | ⟨haddr, hsync⟩
      · simp [logAndApply, hd, haddr, hok]
      · simp [logAndApply, hd, haddr, hsync, hok]
    · have hd' : st.descriptorOpen = false := by
        cases hopen : st.descriptorOpen
        · rfl
        · exact absurd hopen hd
      rcases hfail with haddr | ⟨haddr, hsync⟩
      · simp [logAndApply, hd', hnf, hsnap, haddr, hok]
      · simp [logAndApply, hd', hnf, hsnap, haddr, hsync, hok]

/-- Witness for C1: a concrete state with no open descriptor and an
environment whose record append fails with an I/O error. -/
theorem claim_c1_witness :
    sEnv.addRecord.isOk = false ∧
    (logAndApply sOpts sEnv sVSState emptyEdit).1 =
      (if sEnv.addRecord.isOk then sEnv.sync else sEnv.addRecord) ∧
    (logAndApply sOpts sEnv sVSState emptyEdit).2.1.current = sVSState.current :=
  ⟨rfl,
    (claim_c1 sOpts sEnv sVSState emptyEdit (Or.inr ⟨rfl, rfl⟩) (Or.inl rfl)).1,
    (claim_c1 sOpts sEnv sVSState emptyEdit (Or.inr ⟨rfl, rfl⟩) (Or.inl rfl)).2.2.1⟩

end VersionSetProof
